import Mathlib

/-!
Verification of the vacuum-cleaner path-planning core.

The repository ships `main.py` and `vision.py`; the `game` module that holds
the search engine (`State`, `parse_board`, `uninformed_graph_search`,
`informed_graph_search`, `state_distance`, `solution_path`) is imported by
`main.py` but its source is not part of the available tree.  Definitions for
that module are therefore modelled from the specification (sections 3, 4 and 7
of the design document); each such definition carries a doc comment starting
with "Modelled from the spec:".  Definitions for the dispatch table
(`SolvingModule.algorithms`, `SolvingModule.worker`) and for the playback index
logic (`MainGameModule`) are translated directly from `src/main.py`.
-/

namespace Vacuum

/-- Grid positions are `(x, y)` pairs, matching `state.pos` in `main.py`. -/
abbrev Pos := Nat × Nat

/-- Modelled from the spec: the Board (section 3) is an immutable `n×m` grid of
cells, each Open or Wall.  `main.py` indexes it as `board_layout[y, x]` with a
truthy value meaning an open cell, so a row list of `Bool` per grid row with
`true` = Open embeds it. -/
structure Board where
  rows : List (List Bool)
deriving DecidableEq

/-- A cell is open when it lies inside the grid and its entry is `true`; every
out-of-range cell counts as not open, as section 4.2 requires moves to land on
an Open cell. -/
def Board.isOpen (b : Board) (p : Pos) : Bool :=
  (b.rows.getD p.2 []).getD p.1 false

/-- Dirt level stored at a position of a dirt grid: 0 outside the grid. -/
def dirtAt (d : List (List Nat)) (p : Pos) : Nat :=
  (d.getD p.2 []).getD p.1 0

/-- Writing one cell of a dirt grid; out-of-range writes leave it unchanged. -/
def dirtSet (d : List (List Nat)) (p : Pos) (v : Nat) : List (List Nat) :=
  d.set p.2 ((d.getD p.2 []).set p.1 v)

/-- Modelled from the spec: a State (section 3) is an agent position plus a
dirt-level grid, a value type with structural equality (`game.State` is not
under src/). -/
structure State where
  pos : Pos
  dirt : List (List Nat)
deriving DecidableEq

/-- Modelled from the spec: an Action (section 3) is one of the four orthogonal
moves or Clean, each of unit cost. -/
inductive Action
  | up
  | down
  | left
  | right
  | clean
deriving DecidableEq

/-- Target cell of a move action; `clean` is not a move.  `Nat` coordinates
make a move above row 0 or left of column 0 fall off the grid, hence `none`. -/
def movePos : Action → Pos → Option Pos
  | .up, (x, y) => if y = 0 then none else some (x, y - 1)
  | .down, (x, y) => some (x, y + 1)
  | .left, (x, y) => if x = 0 then none else some (x - 1, y)
  | .right, (x, y) => some (x + 1, y)
  | .clean, _ => none

/-- Modelled from the spec: the successor generator contract (section 4.2).
`Move(d)` is legal iff the adjacent cell in direction `d` is Open and yields
the new position with the dirt grid unchanged; `Clean` is legal iff the dirt
level at the current position is positive and decrements that level by exactly
one, leaving the position unchanged. -/
def applyAction (b : Board) (s : State) (a : Action) : Option State :=
  match a with
  | .clean =>
    if 0 < dirtAt s.dirt s.pos then
      some ⟨s.pos, dirtSet s.dirt s.pos (dirtAt s.dirt s.pos - 1)⟩
    else none
  | a =>
    match movePos a s.pos with
    | none => none
    | some p => if b.isOpen p then some ⟨p, s.dirt⟩ else none

/-- Modelled from the spec: the fixed action ordering Up, Down, Left, Right,
Clean (section 4.2) that makes the expansion order deterministic. -/
def actionOrder : List Action := [.up, .down, .left, .right, .clean]

/-- Modelled from the spec: the set of legal `(Action, resulting State)` pairs
from a state, in the fixed action order (section 4.2). -/
def successors (b : Board) (s : State) : List (Action × State) :=
  actionOrder.filterMap fun a => (applyAction b s a).map fun s' => (a, s')

/-- Every dirt level of the grid is zero. -/
def allZero (d : List (List Nat)) : Bool :=
  d.all fun r => r.all (· == 0)

/-- Modelled from the spec: the goal condition (section 3) —
`state.position == final_position AND all(state.dirt) == 0`. -/
def isGoal (finalPos : Pos) (s : State) : Bool :=
  s.pos == finalPos && allZero s.dirt

/-- Replay of an action sequence from a state: each action must be legal at the
state it is applied to (section 4.2); an illegal action aborts the run.  The
minimum referred to by the claims ranges over action sequences accepted by this
function. -/
def runActions (b : Board) : State → List Action → Option State
  | s, [] => some s
  | s, a :: rest =>
    match applyAction b s a with
    | none => none
    | some s' => runActions b s' rest

/-- The goal is reachable from `s0`: some action sequence runs to completion
and ends in a state satisfying the goal condition. -/
def GoalReachable (b : Board) (s0 : State) (finalPos : Pos) : Prop :=
  ∃ acts s', runActions b s0 acts = some s' ∧ isGoal finalPos s' = true

/-- Modelled from the spec: a Node (section 3) pairs a state with an optional
parent, the action that produced the state from the parent, and the path cost.
Parent back-links are index-based references into an arena of nodes owned by
one search invocation (section 9). -/
structure Node where
  state : State
  parent : Option Nat
  action : Option Action
  path_cost : Nat
deriving DecidableEq

/-- Modelled from the spec: a search produces a goal node with back-links or
the distinct `NotFound` outcome (sections 4.3, 4.4 and 7).  `outOfFuel` and
`broken` are artifacts of the embedding (fuelled recursion, arena indexing);
the theorems show they are never produced. -/
inductive SearchResult
  | found (arena : List Node) (goal : Nat)
  | notFound
  | outOfFuel
  | broken
deriving DecidableEq

/-- States referenced by a list of arena indices (used for the frontier
membership test of section 4.3). -/
def idStates (arena : List Node) (ids : List Nat) : List State :=
  ids.filterMap fun i => (arena[i]?).map Node.state

/-- Modelled from the spec: one expansion step of the uninformed search
(section 4.3) — wrap each successor not already visited and not already in the
frontier into a new node with `path_cost = parent.path_cost + 1`, appending it
to the arena and collecting its index. -/
def expand (visited : List State) (rest : List Nat) (parentIdx parentCost : Nat) :
    List (Action × State) → List Node → List Nat → List Node × List Nat
  | [], arena, acc => (arena, acc)
  | (a, s') :: more, arena, acc =>
    if s' ∈ visited ∨ s' ∈ idStates arena (rest ++ acc) then
      expand visited rest parentIdx parentCost more arena acc
    else
      expand visited rest parentIdx parentCost more
        (arena ++ [⟨s', some parentIdx, some a, parentCost + 1⟩]) (acc ++ [arena.length])

/-- Modelled from the spec: the uninformed search loop (section 4.3).  While
the frontier is non-empty, pop one node (front for FIFO, top for LIFO), test
the goal condition, return the node if satisfied, otherwise mark the state
visited and enqueue the unseen successors.  The recursion is fuelled; the
canonical fuel `searchFuel` is shown sufficient. -/
def uloop (b : Board) (finalPos : Pos) (lifo : Bool) :
    Nat → List Node → List Nat → List State → SearchResult
  | 0, _, _, _ => .outOfFuel
  | fuel + 1, arena, frontier, visited =>
    match frontier with
    | [] => .notFound
    | i :: rest =>
      match arena[i]? with
      | none => .broken
      | some nd =>
        if isGoal finalPos nd.state then .found arena i
        else
          let visited' := nd.state :: visited
          let p := expand visited' rest i nd.path_cost (successors b nd.state) arena []
          uloop b finalPos lifo fuel p.1 (if lifo then p.2 ++ rest else rest ++ p.2) visited'

/-- All in-grid positions of a board, row by row. -/
def gridPositions (b : Board) : List Pos :=
  (List.range b.rows.length).flatMap fun y =>
    (List.range ((b.rows.getD y []).length)).map fun x => (x, y)

/-- All dirt rows pointwise bounded by the given row (same length). -/
def rowsUpTo : List Nat → List (List Nat)
  | [] => [[]]
  | d :: ds => (List.range (d + 1)).flatMap fun v => (rowsUpTo ds).map fun r => v :: r

/-- All dirt grids pointwise bounded by the given grid (same shape). -/
def dirtsUpTo : List (List Nat) → List (List (List Nat))
  | [] => [[]]
  | r :: rs => (rowsUpTo r).flatMap fun v => (dirtsUpTo rs).map fun g => v :: g

/-- A finite enumeration containing every state the search can encounter:
positions are the start position or in-grid positions, dirt grids are pointwise
bounded by the start dirt (moves keep the dirt, Clean only decrements). -/
def stateUniverse (b : Board) (s0 : State) : List State :=
  (s0.pos :: gridPositions b).flatMap fun p =>
    (dirtsUpTo s0.dirt).map fun d => ⟨p, d⟩

/-- Fuel sufficient for the uninformed search: one more than the number of
distinct states it could ever expand. -/
def searchFuel (b : Board) (s0 : State) : Nat :=
  (stateUniverse b s0).dedup.length + 1

/-- Modelled from the spec: `game.uninformed_graph_search` (section 4.3), a
graph search over states quotiented by state equality, FIFO when `lifo` is
false (breadth-first) and LIFO when true (depth-first). -/
def uninformed_graph_search (b : Board) (s0 : State) (finalPos : Pos) (lifo : Bool) :
    SearchResult :=
  uloop b finalPos lifo (searchFuel b s0) [⟨s0, none, none, 0⟩] [0] []

/-- Walk of the parent chain from an arena index, front of the list being the
root; fuelled by the index bound (parents always have smaller indices). -/
def chainTo (arena : List Node) : Nat → Nat → List (State × Option Action)
  | 0, _ => []
  | fuel + 1, i =>
    match arena[i]? with
    | none => []
    | some nd =>
      match nd.parent with
      | none => [(nd.state, none)]
      | some p => chainTo arena fuel p ++ [(nd.state, nd.action)]

/-- Modelled from the spec: `game.solution_path` (section 4.6) walks the parent
links from the goal node back to the start node, collecting `(state, action)`
pairs, and returns them in start-to-goal order. -/
def solution_path (arena : List Node) (goalIdx : Nat) : List (State × Option Action) :=
  chainTo arena (goalIdx + 1) goalIdx

/-- Manhattan distance between grid positions. -/
def manhattan (p q : Pos) : Nat :=
  Nat.dist p.1 q.1 + Nat.dist p.2 q.2

/-- Number of cells with a positive dirt level. -/
def dirtyCount (d : List (List Nat)) : Nat :=
  (d.map fun r => r.countP fun v => decide (0 < v)).sum

/-- Modelled from the spec: `game.state_distance` (sections 4.5 and 9) — the
exact formula is declared unrecoverable; section 4.5 names the Manhattan
distance to the final position combined with the count of still-dirty cells as
the intended admissible shape, which this definition follows. -/
def state_distance (s : State) (finalPos : Pos) : Nat :=
  manhattan s.pos finalPos + dirtyCount s.dirt

/-- Cost recorded in the best-known-cost table for a state, if any. -/
def bestGet (best : List (State × Nat)) (s : State) : Option Nat :=
  (best.find? fun e => e.1 == s).map Prod.snd

/-- Record a new best cost for a state, replacing any previous entry. -/
def bestSet (best : List (State × Nat)) (s : State) (c : Nat) : List (State × Nat) :=
  (s, c) :: best.filter fun e => !(e.1 == s)

/-- Priority key of a frontier entry: `f = path_cost + heuristic`, ties broken
by lower `path_cost` (section 4.4). -/
def entryKey (h : State → Pos → Nat) (finalPos : Pos) (arena : List Node) (i : Nat) :
    Nat × Nat :=
  match arena[i]? with
  | none => (0, 0)
  | some nd => (nd.path_cost + h nd.state finalPos, nd.path_cost)

/-- Strict lexicographic comparison of priority keys. -/
def keyLt (k1 k2 : Nat × Nat) : Bool :=
  k1.1 < k2.1 || (k1.1 == k2.1 && k1.2 < k2.2)

/-- Pop the entry with the minimal key, earliest insertion first on ties; the
frontier list is kept in insertion order, so scanning it left to right and
replacing only on strictly smaller keys realises the tie-break of section 4.4. -/
def selectMin (key : Nat → Nat × Nat) : List Nat → Option (Nat × List Nat)
  | [] => none
  | i :: rest =>
    match selectMin key rest with
    | none => some (i, [])
    | some (j, rest') =>
      if keyLt (key j) (key i) then some (j, i :: rest') else some (i, rest)

/-- Modelled from the spec: one expansion step of the informed search
(section 4.4) — a successor already recorded with a cost at most the new cost
is discarded; one recorded with a strictly greater cost (or not recorded) gets
the table updated and a new node inserted into the frontier. -/
def aexpand (parentIdx parentCost : Nat) :
    List (Action × State) → List Node → List Nat → List (State × Nat) →
    List Node × List Nat × List (State × Nat)
  | [], arena, acc, best => (arena, acc, best)
  | (a, s') :: more, arena, acc, best =>
    let keep :=
      match bestGet best s' with
      | none => true
      | some bc => decide (parentCost + 1 < bc)
    if keep then
      aexpand parentIdx parentCost more
        (arena ++ [⟨s', some parentIdx, some a, parentCost + 1⟩]) (acc ++ [arena.length])
        (bestSet best s' (parentCost + 1))
    else aexpand parentIdx parentCost more arena acc best

/-- Modelled from the spec: the informed search loop (section 4.4).  Pop the
minimal-key entry; an entry whose recorded best cost is now lower than its own
cost is stale and skipped lazily; the first non-stale popped node satisfying
the goal condition is returned; otherwise its successors are processed. -/
def aloop (b : Board) (finalPos : Pos) (h : State → Pos → Nat) :
    Nat → List Node → List Nat → List (State × Nat) → SearchResult
  | 0, _, _, _ => .outOfFuel
  | fuel + 1, arena, frontier, best =>
    match selectMin (entryKey h finalPos arena) frontier with
    | none => .notFound
    | some (i, rest) =>
      match arena[i]? with
      | none => .broken
      | some nd =>
        let stale :=
          match bestGet best nd.state with
          | none => false
          | some bc => decide (bc < nd.path_cost)
        if stale then aloop b finalPos h fuel arena rest best
        else if isGoal finalPos nd.state then .found arena i
        else
          let t := aexpand i nd.path_cost (successors b nd.state) arena [] best
          aloop b finalPos h fuel t.1 (rest ++ t.2.1) t.2.2

/-- Fuel sufficient for the informed search, derived from the decreasing
measure over the best-cost table and the frontier length. -/
def astarFuel (b : Board) (s0 : State) : Nat :=
  (stateUniverse b s0).dedup.length * (stateUniverse b s0).dedup.length + 2

/-- Modelled from the spec: `game.informed_graph_search` (section 4.4), A*
with a priority-queue frontier, a best-known-cost table and lazy stale-entry
skipping. -/
def informed_graph_search (b : Board) (s0 : State) (finalPos : Pos)
    (h : State → Pos → Nat) : SearchResult :=
  aloop b finalPos h (astarFuel b s0) [⟨s0, none, none, 0⟩] [0] [(s0, 0)]

/-! Board parser (section 4.1; `game.parse_board` is not under src/). -/

/-- Modelled from the spec: the recognized cell labels fed to the parser
(section 4.1) — wall, open, start marker, finish marker and dirt-level
markers. -/
inductive Label
  | wall
  | openCell
  | startMark
  | finishMark
  | dirtMark (lvl : Nat)
deriving DecidableEq

/-- Modelled from the spec: the parser error (section 7). -/
inductive MalformedBoardError
  | malformed
deriving DecidableEq

/-- The parser output four-tuple `(Board, start_dirt_grid, start_position,
final_position)`. -/
structure BoardData where
  board : Board
  start_dirt : List (List Nat)
  start_pos : Pos
  final_pos : Pos
deriving DecidableEq

/-- Start and finish markers are open cells; only walls block. -/
def labelOpen : Label → Bool
  | .wall => false
  | _ => true

/-- Open cells default to dirt level 0 unless labeled with a dirt marker. -/
def labelDirt : Label → Nat
  | .dirtMark lvl => lvl
  | _ => 0

/-- Number of grid cells carrying a given label. -/
def countLabel (g : List (List Label)) (l : Label) : Nat :=
  (g.map fun r => r.count l).sum

/-- Positions (x, y) of the grid cells carrying a given label. -/
def positionsOf (g : List (List Label)) (l : Label) : List Pos :=
  (List.range g.length).flatMap fun y =>
    (List.range ((g.getD y []).length)).filterMap fun x =>
      if (g.getD y []).getD x .wall = l then some ((x, y) : Pos) else none

/-- Every row has the length of the first row. -/
def rowsConsistent (g : List (List Label)) : Bool :=
  g.all fun r => r.length == (g.headD []).length

/-- The structure built from a well-formed labeled grid. -/
def boardDataOf (g : List (List Label)) : BoardData :=
  ⟨⟨g.map fun r => r.map labelOpen⟩,
    g.map fun r => r.map labelDirt,
    (positionsOf g .startMark).headD (0, 0),
    (positionsOf g .finishMark).headD (0, 0)⟩

/-- Modelled from the spec: `game.parse_board` (section 4.1) — fails with
`MalformedBoardError` if zero or more than one start marker exists, zero or
more than one finish marker exists, or any row length is inconsistent;
otherwise purely produces the four-tuple. -/
def parse_board (g : List (List Label)) : Except MalformedBoardError BoardData :=
  if countLabel g .startMark = 1 ∧ countLabel g .finishMark = 1 ∧ rowsConsistent g = true then
    .ok (boardDataOf g)
  else .error .malformed

/-! Algorithm dispatch (`SolvingModule` in `src/main.py`). -/

/-- Python's `str.casefold`, modelled as per-character ASCII lowercasing; it
agrees with `casefold` on every string made of ASCII characters, which covers
the dictionary keys "bfs", "dfs", "a*" the lookup compares against. -/
def casefold (s : String) : String :=
  ⟨s.data.map Char.toLower⟩

/-- The KeyError a failed dictionary lookup raises in `SolvingModule.worker`. -/
inductive KeyErr
  | keyError
deriving DecidableEq

/-- The dispatch dictionary `SolvingModule.algorithms` of `src/main.py`:
"bfs" selects the uninformed search with `lifo=False`, "dfs" the uninformed
search with `lifo=True`, "a*" the informed search with the `state_distance`
heuristic; any other key is absent. -/
def algorithms (key : String) : Option (Board → State → Pos → SearchResult) :=
  if key = "bfs" then some fun b s f => uninformed_graph_search b s f false
  else if key = "dfs" then some fun b s f => uninformed_graph_search b s f true
  else if key = "a*" then some fun b s f => informed_graph_search b s f state_distance
  else none

/-- `SolvingModule.worker` of `src/main.py`: look the casefolded algorithm
string up in the dispatch dictionary — a missing key raises KeyError there,
before any search starts — then run the selected search from
`State(start_pos, start_dirt)` and reconstruct the path.  Python's
`str.casefold` is modelled by `casefold` above. -/
def worker (algorithm : String) (board_layout : Board) (start_dirt : List (List Nat))
    (start_pos final_pos : Pos) :
    Except KeyErr (Option (List (State × Option Action))) :=
  match algorithms (casefold algorithm) with
  | none => .error .keyError
  | some solve =>
    match solve board_layout ⟨start_pos, start_dirt⟩ final_pos with
    | .found arena g => .ok (some (solution_path arena g))
    | _ => .ok none

/-- The `self.path` attribute of `SolvingModule` after `worker` returns or
raises: it is initialized to `None` and assigned only by the last line of
`worker`, so a KeyError leaves it `None`. -/
def workerPath (algorithm : String) (board_layout : Board) (start_dirt : List (List Nat))
    (start_pos final_pos : Pos) : Option (List (State × Option Action)) :=
  match worker algorithm board_layout start_dirt start_pos final_pos with
  | .error _ => none
  | .ok p => p

/-! Node-expansion counters, used to state determinism of repeated runs. -/

/-- Number of node expansions the uninformed loop performs (states popped and
expanded; mirrors `uloop` step for step). -/
def uloopCount (b : Board) (finalPos : Pos) (lifo : Bool) :
    Nat → List Node → List Nat → List State → Nat
  | 0, _, _, _ => 0
  | fuel + 1, arena, frontier, visited =>
    match frontier with
    | [] => 0
    | i :: rest =>
      match arena[i]? with
      | none => 0
      | some nd =>
        if isGoal finalPos nd.state then 0
        else
          let visited' := nd.state :: visited
          let p := expand visited' rest i nd.path_cost (successors b nd.state) arena []
          uloopCount b finalPos lifo fuel p.1 (if lifo then p.2 ++ rest else rest ++ p.2)
            visited' + 1

/-- Node-expansion count of one uninformed search run. -/
def uninformed_expansions (b : Board) (s0 : State) (finalPos : Pos) (lifo : Bool) : Nat :=
  uloopCount b finalPos lifo (searchFuel b s0) [⟨s0, none, none, 0⟩] [0] []

/-- Number of node expansions the informed loop performs (non-stale pops that
get expanded; mirrors `aloop` step for step). -/
def aloopCount (b : Board) (finalPos : Pos) (h : State → Pos → Nat) :
    Nat → List Node → List Nat → List (State × Nat) → Nat
  | 0, _, _, _ => 0
  | fuel + 1, arena, frontier, best =>
    match selectMin (entryKey h finalPos arena) frontier with
    | none => 0
    | some (i, rest) =>
      match arena[i]? with
      | none => 0
      | some nd =>
        let stale :=
          match bestGet best nd.state with
          | none => false
          | some bc => decide (bc < nd.path_cost)
        if stale then aloopCount b finalPos h fuel arena rest best
        else if isGoal finalPos nd.state then 0
        else
          let t := aexpand i nd.path_cost (successors b nd.state) arena [] best
          aloopCount b finalPos h fuel t.1 (rest ++ t.2.1) t.2.2 + 1

/-- Node-expansion count of one informed search run. -/
def informed_expansions (b : Board) (s0 : State) (finalPos : Pos)
    (h : State → Pos → Nat) : Nat :=
  aloopCount b finalPos h (astarFuel b s0) [⟨s0, none, none, 0⟩] [0] [(s0, 0)]

/-! Playback index logic (`MainGameModule` in `src/main.py`). -/

/-- The playback fields set in `MainGameModule.__init__` (src/main.py lines
497-499): `path_index = 0` and `path_step = 1`.  Python integers are modelled
by `Int`, since `path_index + path_step` can be `-1` during rewind. -/
structure PlaybackState where
  path_index : Int
  path_step : Int
deriving DecidableEq

/-- The two playback inputs affecting the index: one firing of the
state-advance timer inside `MainGameModule.update`, and the `r` key handler
that reverses the direction. -/
inductive PlaybackEvent
  | advanceTick
  | reverseKey
deriving DecidableEq

/-- One iteration of the while-loop body of `MainGameModule.update`
(src/main.py lines 574-581): `new_index = path_index + path_step`; if
`new_index not in range(len(path))` the loop breaks with the index unchanged,
otherwise `path_index = new_index`. -/
def updateTick (pathLen : Nat) (ps : PlaybackState) : PlaybackState :=
  let newIndex := ps.path_index + ps.path_step
  if 0 ≤ newIndex ∧ newIndex < (pathLen : Int) then { ps with path_index := newIndex }
  else ps

/-- The `K_r` branch of `MainGameModule.event`: `path_step = -path_step`. -/
def reverseToggle (ps : PlaybackState) : PlaybackState :=
  { ps with path_step := -ps.path_step }

/-- Applying a sequence of playback events to a playback state. -/
def applyPlayback (pathLen : Nat) : List PlaybackEvent → PlaybackState → PlaybackState
  | [], ps => ps
  | e :: rest, ps =>
    applyPlayback pathLen rest
      (match e with
        | .advanceTick => updateTick pathLen ps
        | .reverseKey => reverseToggle ps)

/-- The playback state right after `MainGameModule.__init__`. -/
def initialPlayback : PlaybackState := ⟨0, 1⟩

/-! Derived notions used by the statements and the proofs. -/

/-- The state is reachable from `s0` by an action sequence of length exactly
`n`. -/
def ReachN (b : Board) (s0 : State) (n : Nat) (s : State) : Prop :=
  ∃ acts, acts.length = n ∧ runActions b s0 acts = some s

/-- Replaying a `(state, action)` list from a state: each element must carry
an action that, applied to the previous state, produces exactly the element's
state; the result is the final state. -/
def replayEnd (b : Board) : State → List (State × Option Action) → Option State
  | s, [] => some s
  | s, (s1, oa) :: rest =>
    match oa with
    | none => none
    | some a => if applyAction b s a = some s1 then replayEnd b s1 rest else none

/-- The action sequence carried by a path. -/
def pathActions (p : List (State × Option Action)) : List Action :=
  p.filterMap Prod.snd

/-- Characterization of the states in `stateUniverse`: position is the start
position or an in-grid position, dirt is pointwise bounded by the start
dirt. -/
def InUniv (b : Board) (s0 : State) (s : State) : Prop :=
  (s.pos = s0.pos ∨ s.pos ∈ gridPositions b) ∧
  List.Forall₂ (List.Forall₂ (· ≤ ·)) s.dirt s0.dirt

/-- Consistency of a node arena: index 0 holds the root node for `s0`;
a parentless node is the root data; a node with a parent refers to an earlier
node from whose state its action produces its state, with cost one more. -/
def ArenaOk (b : Board) (s0 : State) (arena : List Node) : Prop :=
  arena[0]? = some ⟨s0, none, none, 0⟩ ∧
  (∀ (i : Nat) (nd : Node), arena[i]? = some nd → nd.parent = none →
    nd.state = s0 ∧ nd.action = none ∧ nd.path_cost = 0) ∧
  (∀ (i : Nat) (nd : Node) (p : Nat), arena[i]? = some nd → nd.parent = some p →
    p < i ∧ ∃ pnd a, arena[p]? = some pnd ∧ nd.action = some a ∧
      applyAction b pnd.state a = some nd.state ∧ nd.path_cost = pnd.path_cost + 1)

/-- Costs referenced by a list of arena indices. -/
def idCosts (arena : List Node) (ids : List Nat) : List Nat :=
  ids.filterMap fun i => (arena[i]?).map Node.path_cost

/-- Invariant of the uninformed search loop, holding for both frontier
disciplines. -/
structure UInv (b : Board) (s0 : State) (finalPos : Pos)
    (arena : List Node) (frontier : List Nat) (visited : List State) : Prop where
  arena_ok : ArenaOk b s0 arena
  ids_lt : ∀ i ∈ frontier, i < arena.length
  arena_univ : ∀ nd ∈ arena, InUniv b s0 nd.state
  visited_nodup : visited.Nodup
  visited_univ : ∀ s ∈ visited, InUniv b s0 s
  front_not_vis : ∀ s ∈ idStates arena frontier, s ∉ visited
  front_nodup : (idStates arena frontier).Nodup
  vis_no_goal : ∀ s ∈ visited, isGoal finalPos s = false
  vis_closed : ∀ s ∈ visited, ∀ a s', applyAction b s a = some s' →
    s' ∈ visited ∨ s' ∈ idStates arena frontier
  start_in : s0 ∈ visited ∨ s0 ∈ idStates arena frontier

/-- Additional invariant of the FIFO (breadth-first) discipline: frontier
costs are non-decreasing and within one of each other, every frontier entry's
cost is a lower bound on the length of any action sequence reaching its state,
and every reachable state is visited, in the frontier, or reached only at or
beyond every frontier cost. -/
structure BfsInv (b : Board) (s0 : State)
    (arena : List Node) (frontier : List Nat) (visited : List State) : Prop where
  band : ∀ c1 ∈ idCosts arena frontier, ∀ c2 ∈ idCosts arena frontier, c1 ≤ c2 + 1
  sorted : List.Pairwise (· ≤ ·) (idCosts arena frontier)
  dist_exact : ∀ i ∈ frontier, ∀ nd : Node, arena[i]? = some nd →
    ∀ m, ReachN b s0 m nd.state → nd.path_cost ≤ m
  covered : ∀ s m, ReachN b s0 m s → s ∈ visited ∨ s ∈ idStates arena frontier ∨
    (∀ c ∈ idCosts arena frontier, c ≤ m)

/-- Invariant of the informed search loop: arena consistency, discovered
states recorded in the best-known-cost table, and each recorded state either
still has a frontier entry at its current best cost or has been expanded at
its (then optimal) cost with all successors discovered at most one dearer. -/
structure AInv (b : Board) (s0 : State) (finalPos : Pos) (h : State → Pos → Nat)
    (arena : List Node) (frontier : List Nat) (best : List (State × Nat)) : Prop where
  arena_ok : ArenaOk b s0 arena
  ids_lt : ∀ i ∈ frontier, i < arena.length
  arena_univ : ∀ nd ∈ arena, InUniv b s0 nd.state
  best_univ : ∀ s c, bestGet best s = some c → InUniv b s0 s
  best_bound : ∀ s c, bestGet best s = some c → c ≤ (stateUniverse b s0).dedup.length
  start_best : bestGet best s0 = some 0
  entry_best_le : ∀ i ∈ frontier, ∀ nd : Node, arena[i]? = some nd →
    ∃ bc, bestGet best nd.state = some bc ∧ bc ≤ nd.path_cost
  settled : ∀ s c, bestGet best s = some c →
    (∃ i ∈ frontier, ∃ nd : Node, arena[i]? = some nd ∧ nd.state = s ∧ nd.path_cost = c) ∨
    (isGoal finalPos s = false ∧ (∀ m, ReachN b s0 m s → c ≤ m) ∧
      ∀ a s', applyAction b s a = some s' →
        ∃ c', bestGet best s' = some c' ∧ c' ≤ c + 1)

/-- Potential of one state for the informed-search termination measure. -/
def apot (n : Nat) (best : List (State × Nat)) (s : State) : Nat :=
  (bestGet best s).getD (n + 1)

/-- Termination measure of the informed search: the summed potentials of the
state universe plus the frontier length; it strictly decreases each
iteration. -/
def ameasure (b : Board) (s0 : State) (best : List (State × Nat))
    (frontier : List Nat) : Nat :=
  ((stateUniverse b s0).dedup.map
    (apot (stateUniverse b s0).dedup.length best)).sum + frontier.length

/-! Theorems. -/

/-- C6: each search variant, the reconstructed worker path and the
node-expansion counters are pure functions of the board, start configuration,
final position and algorithm choice — the embedding of the Python code
consults no global state, clock or randomness inside a search, its action
ordering and tie-breaks are fixed, so re-running the same search yields an
identical expansion count and an identical returned path. -/
theorem search_deterministic (b : Board) (sd : List (List Nat)) (sp fp : Pos)
    (algorithm : String) (lifo : Bool) :
    workerPath algorithm b sd sp fp = workerPath algorithm b sd sp fp ∧
    uninformed_graph_search b ⟨sp, sd⟩ fp lifo = uninformed_graph_search b ⟨sp, sd⟩ fp lifo ∧
    informed_graph_search b ⟨sp, sd⟩ fp state_distance =
      informed_graph_search b ⟨sp, sd⟩ fp state_distance ∧
    uninformed_expansions b ⟨sp, sd⟩ fp lifo = uninformed_expansions b ⟨sp, sd⟩ fp lifo ∧
    informed_expansions b ⟨sp, sd⟩ fp state_distance =
      informed_expansions b ⟨sp, sd⟩ fp state_distance :=
  ⟨rfl, rfl, rfl, rfl, rfl⟩

/-- C7: `parse_board` fails with `MalformedBoardError` exactly when the number
of start markers differs from one, the number of finish markers differs from
one, or some row length is inconsistent; otherwise it purely returns the
four-tuple `(Board, start_dirt_grid, start_position, final_position)` built
from the grid. -/
theorem parse_board_spec (g : List (List Label)) :
    (parse_board g = .error .malformed ↔
      countLabel g .startMark ≠ 1 ∨ countLabel g .finishMark ≠ 1 ∨
        rowsConsistent g = false) ∧
    (parse_board g = .error .malformed ∨ parse_board g = .ok (boardDataOf g)) := by
  unfold parse_board
  by_cases h : countLabel g .startMark = 1 ∧ countLabel g .finishMark = 1 ∧
      rowsConsistent g = true
  · rw [if_pos h]
    refine ⟨⟨fun hc => absurd hc (by simp), fun hc => ?_⟩, Or.inr rfl⟩
    rcases hc with hc | hc | hc
    · exact absurd h.1 hc
    · exact absurd h.2.1 hc
    · rw [h.2.2] at hc; cases hc
  · rw [if_neg h]
    refine ⟨⟨fun _ => ?_, fun _ => rfl⟩, Or.inl rfl⟩
    by_contra hc
    push_neg at hc
    exact h ⟨hc.1, hc.2.1, by
      cases hb : rowsConsistent g with
      | false => exact absurd hb hc.2.2
      | true => rfl⟩

/-- C8: the dictionary lookup in `SolvingModule.worker` is performed on the
casefolded algorithm string, so selection is case-insensitive: every string
casefolding to "bfs" selects the FIFO uninformed search, "dfs" the LIFO
uninformed search, and "a*" the informed search with the `state_distance`
heuristic. -/
theorem algorithm_selection (s : String) :
    (casefold s = "bfs" →
      algorithms (casefold s) = some fun b st f => uninformed_graph_search b st f false) ∧
    (casefold s = "dfs" →
      algorithms (casefold s) = some fun b st f => uninformed_graph_search b st f true) ∧
    (casefold s = "a*" →
      algorithms (casefold s) = some fun b st f => informed_graph_search b st f state_distance) := by
  refine ⟨fun h => ?_, fun h => ?_, fun h => ?_⟩ <;> rw [h] <;> rfl

/-- Witness for C8: the three keys evaluated on concrete mixed-case strings. -/
theorem algorithm_selection_witness :
    algorithms (casefold "BFS") = (some fun b st f => uninformed_graph_search b st f false) ∧
    algorithms (casefold "Dfs") = (some fun b st f => uninformed_graph_search b st f true) ∧
    algorithms (casefold "A*") = (some fun b st f => informed_graph_search b st f state_distance) :=
  ⟨(algorithm_selection "BFS").1 (by decide),
    (algorithm_selection "Dfs").2.1 (by decide),
    (algorithm_selection "A*").2.2 (by decide)⟩

/-- C9: for every algorithm string whose casefolded form is none of "bfs",
"dfs", "a*", the dictionary lookup in `SolvingModule.worker` finds no key and
raises KeyError before any search is started, leaving `self.path` equal to
`None`; no fallback or default is applied. -/
theorem worker_unknown_key (algorithm : String) (b : Board) (sd : List (List Nat))
    (sp fp : Pos)
    (h1 : casefold algorithm ≠ "bfs") (h2 : casefold algorithm ≠ "dfs")
    (h3 : casefold algorithm ≠ "a*") :
    worker algorithm b sd sp fp = .error .keyError ∧
    workerPath algorithm b sd sp fp = none := by
  have halg : algorithms (casefold algorithm) = none := by
    unfold algorithms
    rw [if_neg h1, if_neg h2, if_neg h3]
  constructor
  · unfold worker; rw [halg]
  · unfold workerPath worker; rw [halg]

/-- Witness for C9: the lookup of "Dijkstra" raises and leaves no path. -/
theorem worker_unknown_key_witness :
    worker "Dijkstra" ⟨[[true]]⟩ [[0]] (0, 0) (0, 0) = .error .keyError ∧
    workerPath "Dijkstra" ⟨[[true]]⟩ [[0]] (0, 0) (0, 0) = none :=
  worker_unknown_key "Dijkstra" ⟨[[true]]⟩ [[0]] (0, 0) (0, 0)
    (by decide) (by decide) (by decide)

/-- One update tick keeps the playback index inside `range(len(path))`. -/
theorem updateTick_bounds (pathLen : Nat) (ps : PlaybackState)
    (h0 : 0 ≤ ps.path_index) (h1 : ps.path_index < (pathLen : Int)) :
    0 ≤ (updateTick pathLen ps).path_index ∧
      (updateTick pathLen ps).path_index < (pathLen : Int) := by
  unfold updateTick
  by_cases h : 0 ≤ ps.path_index + ps.path_step ∧
      ps.path_index + ps.path_step < (pathLen : Int)
  · simp only [if_pos h]
    exact h
  · simp only [if_neg h]
    exact ⟨h0, h1⟩

/-- Any event sequence keeps the playback index inside `range(len(path))`. -/
theorem applyPlayback_bounds (pathLen : Nat) (evs : List PlaybackEvent)
    (ps : PlaybackState)
    (h0 : 0 ≤ ps.path_index) (h1 : ps.path_index < (pathLen : Int)) :
    0 ≤ (applyPlayback pathLen evs ps).path_index ∧
      (applyPlayback pathLen evs ps).path_index < (pathLen : Int) := by
  induction evs generalizing ps with
  | nil => exact ⟨h0, h1⟩
  | cons e rest ih =>
    cases e with
    | advanceTick =>
      have hb := updateTick_bounds pathLen ps h0 h1
      exact ih (updateTick pathLen ps) hb.1 hb.2
    | reverseKey =>
      exact ih (reverseToggle ps) h0 h1

/-- C10: for every non-empty path, after any sequence of playback steps
(forward ticks or rewinding after direction toggles) starting from the
initial `path_index = 0`, `path_step = 1`, the index remains a valid index in
`range(len(path))`; a step that would leave the range is not applied and
leaves the index unchanged. -/
theorem path_index_in_range (pathLen : Nat) (hlen : 1 ≤ pathLen)
    (evs : List PlaybackEvent) :
    (0 ≤ (applyPlayback pathLen evs initialPlayback).path_index ∧
      (applyPlayback pathLen evs initialPlayback).path_index < (pathLen : Int)) ∧
    (∀ ps : PlaybackState,
      ¬(0 ≤ ps.path_index + ps.path_step ∧
          ps.path_index + ps.path_step < (pathLen : Int)) →
        updateTick pathLen ps = ps) := by
  constructor
  · refine applyPlayback_bounds pathLen evs initialPlayback (by decide) ?_
    show (0 : Int) < (pathLen : Int)
    exact_mod_cast hlen
  · intro ps h
    unfold updateTick
    simp only [if_neg h]

/-- Witness for C10: a length-2 path played forward, reversed, and stepped. -/
theorem path_index_in_range_witness :
    (0 ≤ (applyPlayback 2 [.advanceTick, .advanceTick, .reverseKey, .advanceTick]
        initialPlayback).path_index ∧
      (applyPlayback 2 [.advanceTick, .advanceTick, .reverseKey, .advanceTick]
        initialPlayback).path_index < (2 : Int)) ∧
    (∀ ps : PlaybackState,
      ¬(0 ≤ ps.path_index + ps.path_step ∧ ps.path_index + ps.path_step < (2 : Int)) →
        updateTick 2 ps = ps) :=
  path_index_in_range 2 (by decide) [.advanceTick, .advanceTick, .reverseKey, .advanceTick]

/-! Basic lemmas about actions, runs and reachability. -/

theorem mem_successors_iff {b : Board} {s : State} {a : Action} {s' : State} :
    (a, s') ∈ successors b s ↔ applyAction b s a = some s' := by
  constructor
  · intro h
    rcases List.mem_filterMap.mp h with ⟨a', _, ha'⟩
    rcases Option.map_eq_some'.mp ha' with ⟨t, ht, he⟩
    rw [Prod.mk.injEq] at he
    rw [← he.1, ← he.2] at *
    exact ht
  · intro h
    refine List.mem_filterMap.mpr ⟨a, ?_, ?_⟩
    · cases a <;> simp [actionOrder]
    · rw [h]; rfl

theorem runActions_singleton (b : Board) (t : State) (a : Action) :
    runActions b t [a] = applyAction b t a := by
  unfold runActions
  cases applyAction b t a <;> rfl

theorem runActions_append (b : Board) (s : State) (l1 l2 : List Action) :
    runActions b s (l1 ++ l2) = (runActions b s l1).bind fun t => runActions b t l2 := by
  induction l1 generalizing s with
  | nil => rfl
  | cons a rest ih =>
    rw [List.cons_append]
    show (match applyAction b s a with
        | none => none
        | some s' => runActions b s' (rest ++ l2)) =
      (match applyAction b s a with
        | none => none
        | some s' => runActions b s' rest).bind fun t => runActions b t l2
    cases applyAction b s a with
    | none => rfl
    | some s' => exact ih s'

theorem reachN_zero {b : Board} {s0 s : State} : ReachN b s0 0 s ↔ s = s0 := by
  constructor
  · rintro ⟨acts, hlen, hrun⟩
    rw [List.length_eq_zero] at hlen
    rw [hlen] at hrun
    cases hrun
    rfl
  · rintro rfl
    exact ⟨[], rfl, rfl⟩

theorem reachN_succ {b : Board} {s0 : State} {n : Nat} {s : State} :
    ReachN b s0 (n + 1) s ↔ ∃ t a, ReachN b s0 n t ∧ applyAction b t a = some s := by
  constructor
  · rintro ⟨acts, hlen, hrun⟩
    have hne : acts ≠ [] := by
      intro h; rw [h] at hlen; cases hlen
    have hsplit : acts = acts.dropLast ++ [acts.getLast hne] := (List.dropLast_append_getLast hne).symm
    rw [hsplit, runActions_append] at hrun
    rcases Option.bind_eq_some.mp hrun with ⟨t, hrun1, hrun2⟩
    rw [runActions_singleton] at hrun2
    refine ⟨t, acts.getLast hne, ⟨acts.dropLast, ?_, hrun1⟩, hrun2⟩
    have := List.length_dropLast acts
    rw [this, hlen]
    rfl
  · rintro ⟨t, a, ⟨acts, hlen, hrun⟩, happ⟩
    refine ⟨acts ++ [a], ?_, ?_⟩
    · rw [List.length_append, hlen]; rfl
    · rw [runActions_append, hrun]
      show runActions b t [a] = some s
      rw [runActions_singleton]
      exact happ

theorem reachN_one_more {b : Board} {s0 t s : State} {n : Nat} {a : Action}
    (h : ReachN b s0 n t) (happ : applyAction b t a = some s) :
    ReachN b s0 (n + 1) s :=
  reachN_succ.mpr ⟨t, a, h, happ⟩

/-! Lemmas about the finite state universe. -/

theorem mem_gridPositions_iff {b : Board} {p : Pos} :
    p ∈ gridPositions b ↔ p.2 < b.rows.length ∧ p.1 < (b.rows.getD p.2 []).length := by
  unfold gridPositions
  rw [List.mem_flatMap]
  constructor
  · rintro ⟨y, hy, hp⟩
    rcases List.mem_map.mp hp with ⟨x, hx, rfl⟩
    exact ⟨List.mem_range.mp hy, List.mem_range.mp hx⟩
  · rintro ⟨h2, h1⟩
    exact ⟨p.2, List.mem_range.mpr h2,
      List.mem_map.mpr ⟨p.1, List.mem_range.mpr h1, rfl⟩⟩

theorem isOpen_mem_gridPositions {b : Board} {p : Pos} (h : b.isOpen p = true) :
    p ∈ gridPositions b := by
  rw [mem_gridPositions_iff]
  unfold Board.isOpen at h
  by_cases h2 : p.2 < b.rows.length
  · refine ⟨h2, ?_⟩
    by_cases h1 : p.1 < (b.rows.getD p.2 []).length
    · exact h1
    · rw [List.getD_eq_default _ _ (Nat.le_of_not_lt h1)] at h
      cases h
  · rw [List.getD_eq_default _ _ (Nat.le_of_not_lt h2)] at h
    simp [List.getD] at h

theorem mem_rowsUpTo_iff {d : List Nat} {r : List Nat} :
    r ∈ rowsUpTo d ↔ List.Forall₂ (· ≤ ·) r d := by
  induction d generalizing r with
  | nil =>
    unfold rowsUpTo
    simp [List.forall₂_nil_right_iff]
  | cons v ds ih =>
    unfold rowsUpTo
    rw [List.mem_flatMap]
    constructor
    · rintro ⟨w, hw, hr⟩
      rcases List.mem_map.mp hr with ⟨r', hr', rfl⟩
      exact List.Forall₂.cons (Nat.lt_succ_iff.mp (List.mem_range.mp hw)) (ih.mp hr')
    · intro h
      rcases List.forall₂_cons_right_iff.mp h with ⟨w, r', hw, hr', rfl⟩
      exact ⟨w, List.mem_range.mpr (Nat.lt_succ_iff.mpr hw),
        List.mem_map.mpr ⟨r', ih.mpr hr', rfl⟩⟩

theorem mem_dirtsUpTo_iff {D : List (List Nat)} {g : List (List Nat)} :
    g ∈ dirtsUpTo D ↔ List.Forall₂ (List.Forall₂ (· ≤ ·)) g D := by
  induction D generalizing g with
  | nil =>
    unfold dirtsUpTo
    simp [List.forall₂_nil_right_iff]
  | cons R Ds ih =>
    unfold dirtsUpTo
    rw [List.mem_flatMap]
    constructor
    · rintro ⟨r, hr, hg⟩
      rcases List.mem_map.mp hg with ⟨g', hg', rfl⟩
      exact List.Forall₂.cons (mem_rowsUpTo_iff.mp hr) (ih.mp hg')
    · intro h
      rcases List.forall₂_cons_right_iff.mp h with ⟨r, g', hr, hg', rfl⟩
      exact ⟨r, mem_rowsUpTo_iff.mpr hr, List.mem_map.mpr ⟨g', ih.mpr hg', rfl⟩⟩

theorem mem_stateUniverse_iff {b : Board} {s0 s : State} :
    s ∈ stateUniverse b s0 ↔ InUniv b s0 s := by
  unfold stateUniverse InUniv
  rw [List.mem_flatMap]
  constructor
  · rintro ⟨p, hp, hs⟩
    rcases List.mem_map.mp hs with ⟨d, hd, rfl⟩
    rcases List.mem_cons.mp hp with hp | hp
    · exact ⟨Or.inl hp, mem_dirtsUpTo_iff.mp hd⟩
    · exact ⟨Or.inr hp, mem_dirtsUpTo_iff.mp hd⟩
  · rintro ⟨hp, hd⟩
    refine ⟨s.pos, ?_, List.mem_map.mpr ⟨s.dirt, mem_dirtsUpTo_iff.mpr hd, rfl⟩⟩
    rcases hp with hp | hp
    · exact List.mem_cons.mpr (Or.inl hp)
    · exact List.mem_cons.mpr (Or.inr hp)

theorem forall2_le_set {l l' : List Nat} (hf : List.Forall₂ (· ≤ ·) l l')
    (i v : Nat) (hv : v ≤ l.getD i 0) : List.Forall₂ (· ≤ ·) (l.set i v) l' := by
  induction hf generalizing i with
  | nil => exact List.Forall₂.nil
  | cons hxy hrest ih =>
    cases i with
    | zero =>
      rw [List.set_cons_zero]
      exact List.Forall₂.cons (Nat.le_trans hv hxy) hrest
    | succ i' =>
      rw [List.set_cons_succ]
      exact List.Forall₂.cons hxy (ih i' hv)

theorem forall2_le_dirtSet {g D : List (List Nat)}
    (hf : List.Forall₂ (List.Forall₂ (· ≤ ·)) g D) (p : Pos) (v : Nat)
    (hv : v ≤ dirtAt g p) : List.Forall₂ (List.Forall₂ (· ≤ ·)) (dirtSet g p v) D := by
  unfold dirtSet
  unfold dirtAt at hv
  induction hf generalizing p with
  | nil => exact List.Forall₂.nil
  | @cons r R g' D' hrR hrest ih =>
    rcases p with ⟨x, y⟩
    cases y with
    | zero =>
      rw [List.getD_cons_zero] at hv
      rw [List.getD_cons_zero, List.set_cons_zero]
      exact List.Forall₂.cons (forall2_le_set hrR x v hv) hrest
    | succ y' =>
      rw [List.getD_cons_succ] at hv
      rw [List.getD_cons_succ, List.set_cons_succ]
      exact List.Forall₂.cons hrR (ih (x, y') hv)

theorem forall2_grid_refl (g : List (List Nat)) :
    List.Forall₂ (List.Forall₂ (· ≤ ·)) g g := by
  induction g with
  | nil => exact List.Forall₂.nil
  | cons r g' ih => exact List.Forall₂.cons (List.forall₂_refl r) ih

theorem inUniv_start (b : Board) (s0 : State) : InUniv b s0 s0 :=
  ⟨Or.inl rfl, forall2_grid_refl _⟩

theorem applyAction_cases {b : Board} {s s' : State} {a : Action}
    (h : applyAction b s a = some s') :
    (∃ p, movePos a s.pos = some p ∧ b.isOpen p = true ∧ s' = ⟨p, s.dirt⟩) ∨
    (a = Action.clean ∧ 0 < dirtAt s.dirt s.pos ∧
      s' = ⟨s.pos, dirtSet s.dirt s.pos (dirtAt s.dirt s.pos - 1)⟩) := by
  cases a
  case clean =>
    simp only [applyAction] at h
    split at h
    · right
      cases h
      exact ⟨rfl, by assumption, rfl⟩
    · cases h
  all_goals
    simp only [applyAction] at h
    left
    split at h
    · cases h
    · rename_i p hm
      split at h
      · cases h
        exact ⟨p, hm, by assumption, rfl⟩
      · cases h

theorem applyAction_inUniv {b : Board} {s0 s s' : State} {a : Action}
    (hu : InUniv b s0 s) (h : applyAction b s a = some s') : InUniv b s0 s' := by
  rcases applyAction_cases h with ⟨p, _, ho, rfl⟩ | ⟨_, _, rfl⟩
  · exact ⟨Or.inr (isOpen_mem_gridPositions ho), hu.2⟩
  · exact ⟨hu.1, forall2_le_dirtSet hu.2 s.pos _ (Nat.sub_le _ _)⟩

theorem runActions_inUniv {b : Board} {s0 s : State} {acts : List Action}
    (h : runActions b s0 acts = some s) : InUniv b s0 s := by
  suffices hgen : ∀ t, InUniv b s0 t → runActions b t acts = some s → InUniv b s0 s from
    hgen s0 (inUniv_start b s0) h
  clear h
  induction acts with
  | nil =>
    intro t ht hrun
    cases hrun
    exact ht
  | cons a rest ih =>
    intro t ht hrun
    unfold runActions at hrun
    cases happ : applyAction b t a with
    | none => rw [happ] at hrun; cases hrun
    | some t' =>
      rw [happ] at hrun
      exact ih t' (applyAction_inUniv ht happ) hrun

theorem reachN_inUniv {b : Board} {s0 s : State} {n : Nat}
    (h : ReachN b s0 n s) : InUniv b s0 s := by
  rcases h with ⟨acts, _, hrun⟩
  exact runActions_inUniv hrun

/-! Lemmas about arena index references. -/

theorem mem_idStates_iff {arena : List Node} {ids : List Nat} {s : State} :
    s ∈ idStates arena ids ↔ ∃ i ∈ ids, ∃ nd : Node, arena[i]? = some nd ∧ nd.state = s := by
  unfold idStates
  rw [List.mem_filterMap]
  constructor
  · rintro ⟨i, hi, hmap⟩
    rcases Option.map_eq_some'.mp hmap with ⟨nd, hnd, rfl⟩
    exact ⟨i, hi, nd, hnd, rfl⟩
  · rintro ⟨i, hi, nd, hnd, rfl⟩
    exact ⟨i, hi, by rw [hnd]; rfl⟩

theorem mem_idCosts_iff {arena : List Node} {ids : List Nat} {c : Nat} :
    c ∈ idCosts arena ids ↔ ∃ i ∈ ids, ∃ nd : Node, arena[i]? = some nd ∧ nd.path_cost = c := by
  unfold idCosts
  rw [List.mem_filterMap]
  constructor
  · rintro ⟨i, hi, hmap⟩
    rcases Option.map_eq_some'.mp hmap with ⟨nd, hnd, rfl⟩
    exact ⟨i, hi, nd, hnd, rfl⟩
  · rintro ⟨i, hi, nd, hnd, rfl⟩
    exact ⟨i, hi, by rw [hnd]; rfl⟩

theorem idStates_append_ids (arena : List Node) (ids1 ids2 : List Nat) :
    idStates arena (ids1 ++ ids2) = idStates arena ids1 ++ idStates arena ids2 :=
  List.filterMap_append _ _ _

theorem idCosts_append_ids (arena : List Node) (ids1 ids2 : List Nat) :
    idCosts arena (ids1 ++ ids2) = idCosts arena ids1 ++ idCosts arena ids2 :=
  List.filterMap_append _ _ _

theorem idStates_arena_append (arena ext : List Node) (ids : List Nat)
    (h : ∀ j ∈ ids, j < arena.length) :
    idStates (arena ++ ext) ids = idStates arena ids := by
  unfold idStates
  refine List.filterMap_congr fun j hj => ?_
  rw [List.getElem?_append_left (h j hj)]

theorem idCosts_arena_append (arena ext : List Node) (ids : List Nat)
    (h : ∀ j ∈ ids, j < arena.length) :
    idCosts (arena ++ ext) ids = idCosts arena ids := by
  unfold idCosts
  refine List.filterMap_congr fun j hj => ?_
  rw [List.getElem?_append_left (h j hj)]

theorem getElem?_append_offset (arena ext : List Node) (k : Nat) :
    (arena ++ ext)[arena.length + k]? = ext[k]? := by
  rw [List.getElem?_append_right (Nat.le_add_right _ _)]
  congr 1
  omega

theorem filterMap_getElem?_range {α β : Type} (l : List α) (f : α → β) :
    (List.range l.length).filterMap (fun k => (l[k]?).map f) = l.map f := by
  induction l with
  | nil => rfl
  | cons x xs ih =>
    have hs : ((fun k => (((x :: xs)[k]?).map f)) ∘ Nat.succ) = fun k => ((xs[k]?).map f) := by
      funext k
      simp [Function.comp, List.getElem?_cons_succ]
    rw [List.length_cons, List.range_succ_eq_map, List.filterMap_cons, List.filterMap_map,
      hs, ih]
    simp [List.getElem?_cons_zero]

theorem range_map_shift (L n : Nat) :
    (List.range (n + 1)).map (fun k => L + k) =
      L :: (List.range n).map (fun k => (L + 1) + k) := by
  rw [List.range_succ_eq_map, List.map_cons, List.map_map]
  refine congrArg₂ _ rfl ?_
  refine List.map_congr_left fun k _ => ?_
  show L + (k + 1) = (L + 1) + k
  omega

theorem idStates_newIds (arena ext : List Node) :
    idStates (arena ++ ext) ((List.range ext.length).map fun k => arena.length + k) =
      ext.map Node.state := by
  unfold idStates
  rw [List.filterMap_map]
  have hc : ((fun i => ((arena ++ ext)[i]?).map Node.state) ∘ fun k => arena.length + k) =
      fun k => (ext[k]?).map Node.state := by
    funext k
    show ((arena ++ ext)[arena.length + k]?).map Node.state = _
    rw [getElem?_append_offset]
  rw [hc, filterMap_getElem?_range]

theorem idCosts_newIds (arena ext : List Node) :
    idCosts (arena ++ ext) ((List.range ext.length).map fun k => arena.length + k) =
      ext.map Node.path_cost := by
  unfold idCosts
  rw [List.filterMap_map]
  have hc : ((fun i => ((arena ++ ext)[i]?).map Node.path_cost) ∘ fun k => arena.length + k) =
      fun k => (ext[k]?).map Node.path_cost := by
    funext k
    show ((arena ++ ext)[arena.length + k]?).map Node.path_cost = _
    rw [getElem?_append_offset]
  rw [hc, filterMap_getElem?_range]

/-! The expansion step of the uninformed search. -/

theorem expand_cons (visited : List State) (rest : List Nat) (pi pc : Nat)
    (a : Action) (s' : State) (tl : List (Action × State)) (arena : List Node)
    (acc : List Nat) :
    expand visited rest pi pc ((a, s') :: tl) arena acc =
      if s' ∈ visited ∨ s' ∈ idStates arena (rest ++ acc) then
        expand visited rest pi pc tl arena acc
      else expand visited rest pi pc tl
        (arena ++ [⟨s', some pi, some a, pc + 1⟩]) (acc ++ [arena.length]) := rfl

theorem expand_spec (visited : List State) (rest : List Nat) (pi pc : Nat)
    (l : List (Action × State)) :
    ∀ (arena : List Node) (acc : List Nat),
    (∀ j ∈ acc, j < arena.length) → (∀ j ∈ rest, j < arena.length) →
    ∃ ext : List Node,
      (expand visited rest pi pc l arena acc).1 = arena ++ ext ∧
      (expand visited rest pi pc l arena acc).2 =
        acc ++ (List.range ext.length).map (fun k => arena.length + k) ∧
      (∀ nd ∈ ext, nd.parent = some pi ∧ nd.path_cost = pc + 1 ∧
        ∃ a, nd.action = some a ∧ (a, nd.state) ∈ l) ∧
      (∀ nd ∈ ext, nd.state ∉ visited ∧ nd.state ∉ idStates arena (rest ++ acc)) ∧
      (ext.map Node.state).Nodup ∧
      (∀ a s', (a, s') ∈ l →
        s' ∈ visited ∨ s' ∈ idStates arena (rest ++ acc) ∨ s' ∈ ext.map Node.state) := by
  induction l with
  | nil =>
    intro arena acc hacc hrest
    refine ⟨[], by simp [expand], by simp [expand], by simp, by simp, List.nodup_nil, by simp⟩
  | cons hd tl ih =>
    intro arena acc hacc hrest
    obtain ⟨a, s'⟩ := hd
    by_cases hmem : s' ∈ visited ∨ s' ∈ idStates arena (rest ++ acc)
    · rw [expand_cons, if_pos hmem]
      obtain ⟨ext, h1, h2, h3, h4, h5, h6⟩ := ih arena acc hacc hrest
      refine ⟨ext, h1, h2, ?_, h4, h5, ?_⟩
      · intro nd hnd
        obtain ⟨hp, hc, a', ha', hm⟩ := h3 nd hnd
        exact ⟨hp, hc, a', ha', List.mem_cons_of_mem _ hm⟩
      · intro a0 s0 h0
        rcases List.mem_cons.mp h0 with h0 | h0
        · rw [Prod.mk.injEq] at h0
          obtain ⟨rfl, rfl⟩ := h0
          rcases hmem with hmem | hmem
          · exact Or.inl hmem
          · exact Or.inr (Or.inl hmem)
        · exact h6 a0 s0 h0
    · rw [expand_cons, if_neg hmem]
      push_neg at hmem
      set node : Node := ⟨s', some pi, some a, pc + 1⟩ with hnode
      have hacc2 : ∀ j ∈ acc ++ [arena.length], j < (arena ++ [node]).length := by
        intro j hj
        rw [List.length_append, List.length_singleton]
        rcases List.mem_append.mp hj with hj | hj
        · exact Nat.lt_succ_of_lt (hacc j hj)
        · rw [List.mem_singleton] at hj
          rw [hj]
          exact Nat.lt_succ_self _
      have hrest2 : ∀ j ∈ rest, j < (arena ++ [node]).length := by
        intro j hj
        rw [List.length_append, List.length_singleton]
        exact Nat.lt_succ_of_lt (hrest j hj)
      obtain ⟨ext', h1, h2, h3, h4, h5, h6⟩ := ih (arena ++ [node]) (acc ++ [arena.length]) hacc2 hrest2
      have hlen2 : (arena ++ [node]).length = arena.length + 1 := by
        rw [List.length_append, List.length_singleton]
      have hold : idStates (arena ++ [node]) (rest ++ acc) = idStates arena (rest ++ acc) := by
        refine idStates_arena_append arena [node] (rest ++ acc) fun j hj => ?_
        rcases List.mem_append.mp hj with hj | hj
        · exact hrest j hj
        · exact hacc j hj
      have hnodemem : node.state ∈ idStates (arena ++ [node]) (rest ++ (acc ++ [arena.length])) := by
        rw [mem_idStates_iff]
        refine ⟨arena.length, ?_, node, List.getElem?_concat_length _ _, rfl⟩
        refine List.mem_append.mpr (Or.inr (List.mem_append.mpr (Or.inr ?_)))
        exact List.mem_singleton.mpr rfl
      have hsplit2 : ∀ s0, s0 ∈ idStates (arena ++ [node]) (rest ++ (acc ++ [arena.length])) →
          s0 ∈ idStates arena (rest ++ acc) ∨ s0 = s' := by
        intro s0 hs0
        rw [mem_idStates_iff] at hs0
        obtain ⟨i, hi, nd, hnd, rfl⟩ := hs0
        rcases List.mem_append.mp hi with hi | hi
        · left
          rw [mem_idStates_iff]
          refine ⟨i, List.mem_append.mpr (Or.inl hi), nd, ?_, rfl⟩
          rw [← hnd]
          exact (List.getElem?_append_left (hrest i hi)).symm
        · rcases List.mem_append.mp hi with hi | hi
          · left
            rw [mem_idStates_iff]
            refine ⟨i, List.mem_append.mpr (Or.inr hi), nd, ?_, rfl⟩
            rw [← hnd]
            exact (List.getElem?_append_left (hacc i hi)).symm
          · right
            rw [List.mem_singleton] at hi
            rw [hi] at hnd
            rw [List.getElem?_concat_length] at hnd
            cases hnd
            rfl
      refine ⟨node :: ext', ?_, ?_, ?_, ?_, ?_, ?_⟩
      · rw [h1, List.append_assoc]
        rfl
      · rw [h2, hlen2, List.length_cons, range_map_shift, List.append_assoc]
        rfl
      · intro nd hnd
        rcases List.mem_cons.mp hnd with hnd | hnd
        · rw [hnd]
          exact ⟨rfl, rfl, a, rfl, List.mem_cons_self _ _⟩
        · obtain ⟨hp, hc, a', ha', hm⟩ := h3 nd hnd
          exact ⟨hp, hc, a', ha', List.mem_cons_of_mem _ hm⟩
      · intro nd hnd
        rcases List.mem_cons.mp hnd with hnd | hnd
        · rw [hnd]
          exact ⟨hmem.1, hmem.2⟩
        · refine ⟨(h4 nd hnd).1, fun hcon => ?_⟩
          refine (h4 nd hnd).2 ?_
          rw [← hold] at hcon
          rw [mem_idStates_iff] at hcon ⊢
          obtain ⟨i, hi, nd', hnd', hst⟩ := hcon
          refine ⟨i, ?_, nd', hnd', hst⟩
          rcases List.mem_append.mp hi with hi | hi
          · exact List.mem_append.mpr (Or.inl hi)
          · exact List.mem_append.mpr (Or.inr (List.mem_append.mpr (Or.inl hi)))
      · rw [List.map_cons, List.nodup_cons]
        refine ⟨fun hcon => ?_, h5⟩
        rw [List.mem_map] at hcon
        obtain ⟨nd, hnd, hst⟩ := hcon
        exact (h4 nd hnd).2 (hst ▸ hnodemem)
      · intro a0 s0 h0
        rcases List.mem_cons.mp h0 with h0 | h0
        · rw [Prod.mk.injEq] at h0
          obtain ⟨rfl, rfl⟩ := h0
          refine Or.inr (Or.inr ?_)
          rw [List.map_cons]
          exact List.mem_cons_self _ _
        · rcases h6 a0 s0 h0 with hc | hc | hc
          · exact Or.inl hc
          · rcases hsplit2 s0 hc with hc2 | hc2
            · exact Or.inr (Or.inl hc2)
            · refine Or.inr (Or.inr ?_)
              rw [List.map_cons, hc2]
              exact List.mem_cons_self _ _
          · refine Or.inr (Or.inr ?_)
            rw [List.map_cons]
            exact List.mem_cons_of_mem _ hc

/-! Arena consistency and path reconstruction. -/

theorem idStates_cons {arena : List Node} {i : Nat} {rest : List Nat} {nd : Node}
    (hnd : arena[i]? = some nd) :
    idStates arena (i :: rest) = nd.state :: idStates arena rest := by
  unfold idStates
  rw [List.filterMap_cons, hnd]
  rfl

theorem idCosts_cons {arena : List Node} {i : Nat} {rest : List Nat} {nd : Node}
    (hnd : arena[i]? = some nd) :
    idCosts arena (i :: rest) = nd.path_cost :: idCosts arena rest := by
  unfold idCosts
  rw [List.filterMap_cons, hnd]
  rfl

theorem arenaOk_init (b : Board) (s0 : State) :
    ArenaOk b s0 [⟨s0, none, none, 0⟩] := by
  refine ⟨rfl, ?_, ?_⟩
  · intro i nd hnd _
    cases i with
    | zero =>
      cases hnd
      exact ⟨rfl, rfl, rfl⟩
    | succ i' =>
      rw [List.getElem?_cons_succ] at hnd
      cases hnd
  · intro i nd p hnd hp
    cases i with
    | zero =>
      cases hnd
      cases hp
    | succ i' =>
      rw [List.getElem?_cons_succ] at hnd
      cases hnd

theorem arenaOk_extend {b : Board} {s0 : State} {arena ext : List Node} {pi : Nat}
    {pnd : Node} (hok : ArenaOk b s0 arena) (hpi : arena[pi]? = some pnd)
    (hext : ∀ nd ∈ ext, nd.parent = some pi ∧ nd.path_cost = pnd.path_cost + 1 ∧
      ∃ a, nd.action = some a ∧ applyAction b pnd.state a = some nd.state) :
    ArenaOk b s0 (arena ++ ext) := by
  obtain ⟨hroot, hnone, hsome⟩ := hok
  have hpilt : pi < arena.length := by
    rcases List.getElem?_eq_some.mp hpi with ⟨h, _⟩
    exact h
  have hzero : 0 < arena.length := by
    rcases List.getElem?_eq_some.mp hroot with ⟨h, _⟩
    exact h
  refine ⟨?_, ?_, ?_⟩
  · rw [List.getElem?_append_left hzero]
    exact hroot
  · intro i nd hnd hpar
    by_cases hi : i < arena.length
    · rw [List.getElem?_append_left hi] at hnd
      exact hnone i nd hnd hpar
    · rw [List.getElem?_append_right (Nat.le_of_not_lt hi)] at hnd
      have hmem : nd ∈ ext := List.getElem?_mem hnd
      rw [(hext nd hmem).1] at hpar
      cases hpar
  · intro i nd p hnd hpar
    by_cases hi : i < arena.length
    · rw [List.getElem?_append_left hi] at hnd
      obtain ⟨hplt, pnd', a, hpnd', ha, happ, hc⟩ := hsome i nd p hnd hpar
      refine ⟨hplt, pnd', a, ?_, ha, happ, hc⟩
      rw [List.getElem?_append_left (Nat.lt_trans hplt hi)]
      exact hpnd'
    · rw [List.getElem?_append_right (Nat.le_of_not_lt hi)] at hnd
      have hmem : nd ∈ ext := List.getElem?_mem hnd
      obtain ⟨hp, hc, a, ha, happ⟩ := hext nd hmem
      rw [hp] at hpar
      cases hpar
      refine ⟨Nat.lt_of_lt_of_le hpilt (Nat.le_of_not_lt hi), pnd, a, ?_, ha, happ, hc⟩
      rw [List.getElem?_append_left hpilt]
      exact hpi

theorem replayEnd_append (b : Board) (s : State) (l1 l2 : List (State × Option Action)) :
    replayEnd b s (l1 ++ l2) = (replayEnd b s l1).bind fun e => replayEnd b e l2 := by
  induction l1 generalizing s with
  | nil => rfl
  | cons hd tl ih =>
    obtain ⟨s1, oa⟩ := hd
    rw [List.cons_append]
    cases oa with
    | none => rfl
    | some a =>
      show (if applyAction b s a = some s1 then replayEnd b s1 (tl ++ l2) else none) =
        (if applyAction b s a = some s1 then replayEnd b s1 tl else none).bind
          fun e => replayEnd b e l2
      by_cases hap : applyAction b s a = some s1
      · rw [if_pos hap, if_pos hap, ih]
      · rw [if_neg hap, if_neg hap]
        rfl

theorem replayEnd_runActions (b : Board) :
    ∀ (p : List (State × Option Action)) (s e : State),
    replayEnd b s p = some e →
    runActions b s (pathActions p) = some e ∧ (pathActions p).length = p.length := by
  intro p
  induction p with
  | nil =>
    intro s e h
    cases h
    exact ⟨rfl, rfl⟩
  | cons hd tl ih =>
    intro s e h
    obtain ⟨s1, oa⟩ := hd
    cases oa with
    | none => cases h
    | some a =>
      have h' : (if applyAction b s a = some s1 then replayEnd b s1 tl else none) = some e := h
      by_cases hap : applyAction b s a = some s1
      · rw [if_pos hap] at h'
        obtain ⟨hrun, hlen⟩ := ih s1 e h'
        constructor
        · show runActions b s (a :: pathActions tl) = some e
          show (match applyAction b s a with
            | none => none
            | some s' => runActions b s' (pathActions tl)) = some e
          rw [hap]
          exact hrun
        · show (a :: pathActions tl).length = tl.length + 1
          rw [List.length_cons, hlen]
      · rw [if_neg hap] at h'
        cases h'

theorem chainTo_fuel_congr {b : Board} {s0 : State} {arena : List Node}
    (hok : ArenaOk b s0 arena) :
    ∀ i f1 f2, i < f1 → i < f2 → chainTo arena f1 i = chainTo arena f2 i := by
  intro i
  induction i using Nat.strong_induction_on with
  | _ i ihs =>
    intro f1 f2 h1 h2
    obtain ⟨k1, rfl⟩ : ∃ k, f1 = k + 1 := ⟨f1 - 1, by omega⟩
    obtain ⟨k2, rfl⟩ : ∃ k, f2 = k + 1 := ⟨f2 - 1, by omega⟩
    show chainTo arena (k1 + 1) i = chainTo arena (k2 + 1) i
    unfold chainTo
    cases hnd : arena[i]? with
    | none => rfl
    | some nd =>
      show (match nd.parent with
        | none => [(nd.state, none)]
        | some p => chainTo arena k1 p ++ [(nd.state, nd.action)]) =
        (match nd.parent with
        | none => [(nd.state, none)]
        | some p => chainTo arena k2 p ++ [(nd.state, nd.action)])
      cases hp : nd.parent with
      | none => rfl
      | some p =>
        have hpi : p < i := (hok.2.2 i nd p hnd hp).1
        show chainTo arena k1 p ++ [(nd.state, nd.action)] =
          chainTo arena k2 p ++ [(nd.state, nd.action)]
        rw [ihs p hpi k1 k2 (by omega) (by omega)]

theorem chainTo_spec {b : Board} {s0 : State} {arena : List Node}
    (hok : ArenaOk b s0 arena) :
    ∀ i nd, arena[i]? = some nd →
    ∃ tail, chainTo arena (i + 1) i = (s0, none) :: tail ∧
      replayEnd b s0 tail = some nd.state ∧
      (chainTo arena (i + 1) i).length = nd.path_cost + 1 ∧
      (chainTo arena (i + 1) i).getLast? = some (nd.state, nd.action) := by
  intro i
  induction i using Nat.strong_induction_on with
  | _ i ihs =>
    intro nd hnd
    show ∃ tail, chainTo arena (i + 1) i = (s0, none) :: tail ∧ _
    have hunf : chainTo arena (i + 1) i =
        match nd.parent with
        | none => [(nd.state, none)]
        | some p => chainTo arena i p ++ [(nd.state, nd.action)] := by
      conv_lhs => rw [chainTo]
      rw [hnd]
    cases hp : nd.parent with
    | none =>
      obtain ⟨hst, hac, hco⟩ := hok.2.1 i nd hnd hp
      rw [hp] at hunf
      rw [hunf, hst, hac, hco]
      exact ⟨[], rfl, rfl, rfl, rfl⟩
    | some p =>
      obtain ⟨hplt, pnd, a, hpnd, ha, happ, hco⟩ := hok.2.2 i nd p hnd hp
      rw [hp] at hunf
      have hunf2 : chainTo arena (i + 1) i =
          chainTo arena i p ++ [(nd.state, nd.action)] := hunf
      have hfuel : chainTo arena i p = chainTo arena (p + 1) p :=
        chainTo_fuel_congr hok p i (p + 1) hplt (Nat.lt_succ_self p)
      obtain ⟨tail, htail, hrep, hlen, _⟩ := ihs p hplt pnd hpnd
      refine ⟨tail ++ [(nd.state, nd.action)], ?_, ?_, ?_, ?_⟩
      · rw [hunf2, hfuel, htail]
        rfl
      · rw [replayEnd_append, hrep]
        show replayEnd b pnd.state [(nd.state, nd.action)] = some nd.state
        rw [ha]
        show (if applyAction b pnd.state a = some nd.state
          then some nd.state else none) = some nd.state
        rw [if_pos happ]
      · rw [hunf2, hfuel, List.length_append, hlen, hco]
        rfl
      · rw [hunf2, hfuel]
        exact List.getLast?_concat _

/-! Preservation of the uninformed-search invariant. -/

theorem uinv_step {b : Board} {s0 : State} {finalPos : Pos} (lifo : Bool)
    {arena : List Node} {i : Nat} {rest : List Nat} {visited : List State} {nd : Node}
    (hU : UInv b s0 finalPos arena (i :: rest) visited)
    (hnd : arena[i]? = some nd) (hng : isGoal finalPos nd.state = false) :
    ∀ arena' newIds,
      expand (nd.state :: visited) rest i nd.path_cost (successors b nd.state) arena [] =
        (arena', newIds) →
      UInv b s0 finalPos arena' (if lifo then newIds ++ rest else rest ++ newIds)
        (nd.state :: visited) := by
  intro arena' newIds hexp
  have hrestlt : ∀ j ∈ rest, j < arena.length := fun j hj =>
    hU.ids_lt j (List.mem_cons_of_mem _ hj)
  obtain ⟨ext, h1, h2, h3, h4, h5, h6⟩ :=
    expand_spec (nd.state :: visited) rest i nd.path_cost (successors b nd.state) arena []
      (by intro j hj; cases hj) hrestlt
  rw [hexp] at h1 h2
  simp only [List.append_nil] at h4 h6
  have h1' : arena' = arena ++ ext := h1
  have h2' : newIds = (List.range ext.length).map (fun k => arena.length + k) := by
    have : newIds = [] ++ (List.range ext.length).map (fun k => arena.length + k) := h2
    rw [List.nil_append] at this
    exact this
  subst h1'
  subst h2'
  have hidrest : idStates (arena ++ ext) rest = idStates arena rest :=
    idStates_arena_append arena ext rest hrestlt
  have hidnew : idStates (arena ++ ext)
      ((List.range ext.length).map fun k => arena.length + k) = ext.map Node.state :=
    idStates_newIds arena ext
  have hndmem : nd ∈ arena := List.getElem?_mem hnd
  have hmemF : ∀ s : State, s ∈ idStates (arena ++ ext)
      (if lifo then
        ((List.range ext.length).map fun k => arena.length + k) ++ rest
      else rest ++ (List.range ext.length).map fun k => arena.length + k) ↔
      (s ∈ idStates arena rest ∨ s ∈ ext.map Node.state) := by
    intro s
    cases lifo with
    | false =>
      show s ∈ idStates (arena ++ ext)
        (rest ++ (List.range ext.length).map fun k => arena.length + k) ↔ _
      rw [idStates_append_ids, List.mem_append, hidrest, hidnew]
    | true =>
      show s ∈ idStates (arena ++ ext)
        (((List.range ext.length).map fun k => arena.length + k) ++ rest) ↔ _
      rw [idStates_append_ids, List.mem_append, hidrest, hidnew, or_comm]
  refine ⟨?_, ?_, ?_, ?_, ?_, ?_, ?_, ?_, ?_, ?_⟩
  · refine arenaOk_extend hU.arena_ok hnd fun nd' hnd' => ?_
    obtain ⟨hp, hc, a, ha, hm⟩ := h3 nd' hnd'
    exact ⟨hp, hc, a, ha, mem_successors_iff.mp hm⟩
  · intro j hj
    rw [List.length_append]
    have hj2 : j ∈ rest ∨
        j ∈ (List.range ext.length).map (fun k => arena.length + k) := by
      cases lifo with
      | false =>
        rcases List.mem_append.mp hj with h | h
        · exact Or.inl h
        · exact Or.inr h
      | true =>
        rcases List.mem_append.mp hj with h | h
        · exact Or.inr h
        · exact Or.inl h
    rcases hj2 with h | h
    · exact Nat.lt_of_lt_of_le (hrestlt j h) (Nat.le_add_right _ _)
    · rcases List.mem_map.mp h with ⟨k, hk, rfl⟩
      have := List.mem_range.mp hk
      omega
  · intro nd' hnd'
    rcases List.mem_append.mp hnd' with h | h
    · exact hU.arena_univ nd' h
    · obtain ⟨_, _, a, _, hm⟩ := h3 nd' h
      exact applyAction_inUniv (hU.arena_univ nd hndmem) (mem_successors_iff.mp hm)
  · rw [List.nodup_cons]
    refine ⟨?_, hU.visited_nodup⟩
    refine hU.front_not_vis nd.state ?_
    rw [idStates_cons hnd]
    exact List.mem_cons_self _ _
  · intro s hs
    rcases List.mem_cons.mp hs with rfl | hs
    · exact hU.arena_univ nd hndmem
    · exact hU.visited_univ s hs
  · intro s hs
    rcases (hmemF s).mp hs with hs | hs
    · have hnv : s ∉ visited := hU.front_not_vis s
        (by rw [idStates_cons hnd]; exact List.mem_cons_of_mem _ hs)
      have hne : s ≠ nd.state := by
        have hn := hU.front_nodup
        rw [idStates_cons hnd, List.nodup_cons] at hn
        intro he
        rw [he] at hs
        exact hn.1 hs
      intro hcon
      rcases List.mem_cons.mp hcon with hcon | hcon
      · exact hne hcon
      · exact hnv hcon
    · rw [List.mem_map] at hs
      obtain ⟨nd', hnd', rfl⟩ := hs
      exact (h4 nd' hnd').1
  · have hdisj : ∀ s ∈ idStates arena rest, s ∉ ext.map Node.state := by
      intro s hs hcon
      rw [List.mem_map] at hcon
      obtain ⟨nd', hnd', rfl⟩ := hcon
      exact (h4 nd' hnd').2 hs
    have htl : (idStates arena rest).Nodup := by
      have hn := hU.front_nodup
      rw [idStates_cons hnd, List.nodup_cons] at hn
      exact hn.2
    cases lifo with
    | false =>
      show (idStates (arena ++ ext)
        (rest ++ (List.range ext.length).map fun k => arena.length + k)).Nodup
      rw [idStates_append_ids, hidrest, hidnew, List.nodup_append]
      exact ⟨htl, h5, hdisj⟩
    | true =>
      show (idStates (arena ++ ext)
        (((List.range ext.length).map fun k => arena.length + k) ++ rest)).Nodup
      rw [idStates_append_ids, hidrest, hidnew, List.nodup_append]
      refine ⟨h5, htl, fun s hs hcon => hdisj s hcon hs⟩
  · intro s hs
    rcases List.mem_cons.mp hs with rfl | hs
    · exact hng
    · exact hU.vis_no_goal s hs
  · intro s hsv a s' happ
    rcases List.mem_cons.mp hsv with rfl | hsv
    · rcases h6 a s' (mem_successors_iff.mpr happ) with h | h | h
      · exact Or.inl h
      · exact Or.inr ((hmemF s').mpr (Or.inl h))
      · exact Or.inr ((hmemF s').mpr (Or.inr h))
    · rcases hU.vis_closed s hsv a s' happ with h | h
      · exact Or.inl (List.mem_cons_of_mem _ h)
      · rw [idStates_cons hnd] at h
        rcases List.mem_cons.mp h with heq | h
        · rw [heq]
          exact Or.inl (List.mem_cons_self _ _)
        · exact Or.inr ((hmemF s').mpr (Or.inl h))
  · rcases hU.start_in with h | h
    · exact Or.inl (List.mem_cons_of_mem _ h)
    · rw [idStates_cons hnd] at h
      rcases List.mem_cons.mp h with heq | h
      · rw [heq]
        exact Or.inl (List.mem_cons_self _ _)
      · exact Or.inr ((hmemF s0).mpr (Or.inl h))

/-! The uninformed search loop: unfolding equations and main specification. -/

theorem uloop_zero (b : Board) (finalPos : Pos) (lifo : Bool) (arena : List Node)
    (frontier : List Nat) (visited : List State) :
    uloop b finalPos lifo 0 arena frontier visited = .outOfFuel := rfl

theorem uloop_nil (b : Board) (finalPos : Pos) (lifo : Bool) (fuel : Nat)
    (arena : List Node) (visited : List State) :
    uloop b finalPos lifo (fuel + 1) arena [] visited = .notFound := rfl

theorem uloop_cons_none {b : Board} {finalPos : Pos} {lifo : Bool} {fuel : Nat}
    {arena : List Node} {i : Nat} {rest : List Nat} {visited : List State}
    (hnd : arena[i]? = none) :
    uloop b finalPos lifo (fuel + 1) arena (i :: rest) visited = .broken := by
  conv_lhs => rw [uloop]
  rw [hnd]

theorem uloop_cons {b : Board} {finalPos : Pos} {lifo : Bool} {fuel : Nat}
    {arena : List Node} {i : Nat} {rest : List Nat} {visited : List State} {nd : Node}
    (hnd : arena[i]? = some nd) :
    uloop b finalPos lifo (fuel + 1) arena (i :: rest) visited =
      if isGoal finalPos nd.state then .found arena i
      else
        uloop b finalPos lifo fuel
          (expand (nd.state :: visited) rest i nd.path_cost
            (successors b nd.state) arena []).1
          (if lifo then
            (expand (nd.state :: visited) rest i nd.path_cost
              (successors b nd.state) arena []).2 ++ rest
          else
            rest ++ (expand (nd.state :: visited) rest i nd.path_cost
              (successors b nd.state) arena []).2)
          (nd.state :: visited) := by
  conv_lhs => rw [uloop]
  rw [hnd]

theorem uinv_init (b : Board) (s0 : State) (finalPos : Pos) :
    UInv b s0 finalPos [⟨s0, none, none, 0⟩] [0] [] := by
  refine ⟨arenaOk_init b s0, ?_, ?_, List.nodup_nil, ?_, ?_, ?_, ?_, ?_, ?_⟩
  · intro j hj
    rw [List.mem_singleton] at hj
    rw [hj]
    exact Nat.one_pos
  · intro nd hnd
    rw [List.mem_singleton] at hnd
    rw [hnd]
    exact inUniv_start b s0
  · intro s hs
    cases hs
  · intro s _ hcon
    cases hcon
  · rw [idStates_cons rfl]
    refine List.nodup_cons.mpr ⟨fun h => ?_, List.nodup_nil⟩
    cases h
  · intro s hs
    cases hs
  · intro s hs
    cases hs
  · right
    rw [idStates_cons rfl]
    exact List.mem_cons_self _ _

theorem uinv_reach_visited {b : Board} {s0 : State} {finalPos : Pos}
    {arena : List Node} {visited : List State}
    (hU : UInv b s0 finalPos arena [] visited) :
    ∀ n s, ReachN b s0 n s → s ∈ visited := by
  intro n
  induction n with
  | zero =>
    intro s hs
    rw [reachN_zero] at hs
    subst hs
    rcases hU.start_in with h | h
    · exact h
    · cases h
  | succ n ihn =>
    intro s hs
    rcases reachN_succ.mp hs with ⟨t, a, ht, happ⟩
    rcases hU.vis_closed t (ihn t ht) a s happ with h | h
    · exact h
    · cases h

theorem uloop_spec {b : Board} {s0 : State} {finalPos : Pos} (lifo : Bool) :
    ∀ (fuel : Nat) (arena : List Node) (frontier : List Nat) (visited : List State),
    UInv b s0 finalPos arena frontier visited →
    (∀ arenaF g, uloop b finalPos lifo fuel arena frontier visited = .found arenaF g →
      ArenaOk b s0 arenaF ∧
      ∃ nd : Node, arenaF[g]? = some nd ∧ isGoal finalPos nd.state = true) ∧
    (uloop b finalPos lifo fuel arena frontier visited = .notFound →
      ∀ n s, ReachN b s0 n s → isGoal finalPos s = false) := by
  intro fuel
  induction fuel with
  | zero =>
    intro arena frontier visited hU
    constructor
    · intro aF g h
      rw [uloop_zero] at h
      cases h
    · intro h
      rw [uloop_zero] at h
      cases h
  | succ fuel ih =>
    intro arena frontier visited hU
    cases frontier with
    | nil =>
      constructor
      · intro aF g h
        rw [uloop_nil] at h
        cases h
      · intro _ n s hs
        exact hU.vis_no_goal s (uinv_reach_visited hU n s hs)
    | cons i rest =>
      cases hnd : arena[i]? with
      | none =>
        constructor
        · intro aF g h
          rw [uloop_cons_none hnd] at h
          cases h
        · intro h
          rw [uloop_cons_none hnd] at h
          cases h
      | some nd =>
        by_cases hg : isGoal finalPos nd.state = true
        · constructor
          · intro aF g h
            rw [uloop_cons hnd, if_pos hg] at h
            injection h with h1 h2
            subst h1
            subst h2
            exact ⟨hU.arena_ok, nd, hnd, hg⟩
          · intro h
            rw [uloop_cons hnd, if_pos hg] at h
            cases h
        · have hg' : isGoal finalPos nd.state = false := by
            rcases Bool.eq_false_or_eq_true (isGoal finalPos nd.state) with h | h
            · exact absurd h hg
            · exact h
          have hnext := uinv_step lifo hU hnd hg' _ _ rfl
          have hrec := ih _ _ _ hnext
          constructor
          · intro aF g h
            rw [uloop_cons hnd, if_neg hg] at h
            exact hrec.1 aF g h
          · intro h
            rw [uloop_cons hnd, if_neg hg] at h
            exact hrec.2 h

/-! Uniqueness of the goal state among states of the start's dirt shape. -/

theorem allZero_forall {d : List (List Nat)} :
    allZero d = true ↔ ∀ r ∈ d, ∀ v ∈ r, v = 0 := by
  unfold allZero
  rw [List.all_eq_true]
  constructor
  · intro h r hr v hv
    have := h r hr
    rw [List.all_eq_true] at this
    have := this v hv
    rwa [beq_iff_eq] at this
  · intro h r hr
    rw [List.all_eq_true]
    intro v hv
    rw [beq_iff_eq]
    exact h r hr v hv

theorem zero_row_eq {R r r' : List Nat}
    (h1 : List.Forall₂ (· ≤ ·) r R) (h2 : List.Forall₂ (· ≤ ·) r' R)
    (z1 : ∀ v ∈ r, v = 0) (z2 : ∀ v ∈ r', v = 0) : r = r' := by
  induction h1 generalizing r' with
  | nil =>
    rw [List.forall₂_nil_right_iff] at h2
    exact h2.symm
  | @cons x y l L _ _ ih =>
    rcases List.forall₂_cons_right_iff.mp h2 with ⟨x', l', _, hl', rfl⟩
    have hx : x = 0 := z1 x (List.mem_cons_self _ _)
    have hx' : x' = 0 := z2 x' (List.mem_cons_self _ _)
    rw [hx, hx']
    rw [ih hl' (fun v hv => z1 v (List.mem_cons_of_mem _ hv))
      (fun v hv => z2 v (List.mem_cons_of_mem _ hv))]

theorem allZero_eq_shape {D d d' : List (List Nat)}
    (h1 : List.Forall₂ (List.Forall₂ (· ≤ ·)) d D)
    (h2 : List.Forall₂ (List.Forall₂ (· ≤ ·)) d' D)
    (z1 : allZero d = true) (z2 : allZero d' = true) : d = d' := by
  rw [allZero_forall] at z1 z2
  induction h1 generalizing d' with
  | nil =>
    rw [List.forall₂_nil_right_iff] at h2
    exact h2.symm
  | @cons r R l L hrR _ ih =>
    rcases List.forall₂_cons_right_iff.mp h2 with ⟨r', l', hr', hl', rfl⟩
    rw [zero_row_eq hrR hr' (z1 r (List.mem_cons_self _ _)) (z2 r' (List.mem_cons_self _ _))]
    rw [ih hl' (fun q hq => z1 q (List.mem_cons_of_mem _ hq))
      (fun q hq => z2 q (List.mem_cons_of_mem _ hq))]

theorem isGoal_iff {finalPos : Pos} {s : State} :
    isGoal finalPos s = true ↔ s.pos = finalPos ∧ allZero s.dirt = true := by
  unfold isGoal
  rw [Bool.and_eq_true, beq_iff_eq]

theorem goal_state_unique {b : Board} {s0 : State} {finalPos : Pos} {s t : State}
    (hs : InUniv b s0 s) (ht : InUniv b s0 t)
    (hgs : isGoal finalPos s = true) (hgt : isGoal finalPos t = true) : s = t := by
  rcases isGoal_iff.mp hgs with ⟨hp1, hz1⟩
  rcases isGoal_iff.mp hgt with ⟨hp2, hz2⟩
  have hd : s.dirt = t.dirt := allZero_eq_shape hs.2 ht.2 hz1 hz2
  obtain ⟨ps, ds⟩ := s
  obtain ⟨pt, dt⟩ := t
  simp only at hp1 hp2 hd
  rw [hp1, hp2, hd]

/-! The breadth-first invariant: one covered-reach helper and preservation. -/

theorem bfs_reach_le_covered {b : Board} {s0 : State} {finalPos : Pos}
    {arena : List Node} {i : Nat} {rest : List Nat} {visited : List State} {nd : Node}
    (hU : UInv b s0 finalPos arena (i :: rest) visited)
    (hB : BfsInv b s0 arena (i :: rest) visited)
    (hnd : arena[i]? = some nd) :
    ∀ m s, ReachN b s0 m s → m ≤ nd.path_cost →
      s ∈ visited ∨ s ∈ idStates arena (i :: rest) := by
  intro m s hs hm
  have hcmem : nd.path_cost ∈ idCosts arena (i :: rest) :=
    mem_idCosts_iff.mpr ⟨i, List.mem_cons_self _ _, nd, hnd, rfl⟩
  cases m with
  | zero =>
    rw [reachN_zero] at hs
    subst hs
    exact hU.start_in
  | succ m' =>
    rcases reachN_succ.mp hs with ⟨t, a, ht, happ⟩
    rcases hB.covered t m' ht with hc | hc | hc
    · exact hU.vis_closed t hc a s happ
    · rw [idStates_cons hnd] at hc
      rcases List.mem_cons.mp hc with heq | hc
      · exfalso
        have := hB.dist_exact i (List.mem_cons_self _ _) nd hnd m' (heq ▸ ht)
        omega
      · exfalso
        rcases mem_idStates_iff.mp hc with ⟨j, hj, ndt, hndt, hst⟩
        have hdist := hB.dist_exact j (List.mem_cons_of_mem _ hj) ndt hndt m' (hst ▸ ht)
        have hctmem : ndt.path_cost ∈ idCosts arena rest :=
          mem_idCosts_iff.mpr ⟨j, hj, ndt, hndt, rfl⟩
        have hsorted := hB.sorted
        rw [idCosts_cons hnd] at hsorted
        have hle : nd.path_cost ≤ ndt.path_cost :=
          (List.pairwise_cons.mp hsorted).1 ndt.path_cost hctmem
        omega
    · exfalso
      have := hc nd.path_cost hcmem
      omega

theorem pairwise_le_of_const {l : List Nat} {v : Nat} (h : ∀ x ∈ l, x = v) :
    l.Pairwise (· ≤ ·) := by
  induction l with
  | nil => exact List.Pairwise.nil
  | cons x xs ih =>
    refine List.Pairwise.cons ?_ (ih fun y hy => h y (List.mem_cons_of_mem _ hy))
    intro y hy
    rw [h x (List.mem_cons_self _ _), h y (List.mem_cons_of_mem _ hy)]

theorem bfsinv_step {b : Board} {s0 : State} {finalPos : Pos}
    {arena : List Node} {i : Nat} {rest : List Nat} {visited : List State} {nd : Node}
    (hU : UInv b s0 finalPos arena (i :: rest) visited)
    (hB : BfsInv b s0 arena (i :: rest) visited)
    (hnd : arena[i]? = some nd) :
    ∀ arena' newIds,
      expand (nd.state :: visited) rest i nd.path_cost (successors b nd.state) arena [] =
        (arena', newIds) →
      BfsInv b s0 arena' (rest ++ newIds) (nd.state :: visited) := by
  intro arena' newIds hexp
  have hrestlt : ∀ j ∈ rest, j < arena.length := fun j hj =>
    hU.ids_lt j (List.mem_cons_of_mem _ hj)
  obtain ⟨ext, h1, h2, h3, h4, h5, h6⟩ :=
    expand_spec (nd.state :: visited) rest i nd.path_cost (successors b nd.state) arena []
      (by intro j hj; cases hj) hrestlt
  rw [hexp] at h1 h2
  simp only [List.append_nil] at h4 h6
  have h1' : arena' = arena ++ ext := h1
  have h2' : newIds = (List.range ext.length).map (fun k => arena.length + k) := by
    have h := h2
    rw [List.nil_append] at h
    exact h
  subst h1'
  subst h2'
  have hidrest : idStates (arena ++ ext) rest = idStates arena rest :=
    idStates_arena_append arena ext rest hrestlt
  have hidcrest : idCosts (arena ++ ext) rest = idCosts arena rest :=
    idCosts_arena_append arena ext rest hrestlt
  have hidcnew : idCosts (arena ++ ext)
      ((List.range ext.length).map fun k => arena.length + k) = ext.map Node.path_cost :=
    idCosts_newIds arena ext
  have hextc : ∀ x ∈ ext.map Node.path_cost, x = nd.path_cost + 1 := by
    intro x hx
    rcases List.mem_map.mp hx with ⟨nd', hnd', rfl⟩
    exact (h3 nd' hnd').2.1
  have hcosts : idCosts (arena ++ ext)
      (rest ++ (List.range ext.length).map fun k => arena.length + k) =
      idCosts arena rest ++ ext.map Node.path_cost := by
    rw [idCosts_append_ids, hidcrest, hidcnew]
  have holdsorted := hB.sorted
  rw [idCosts_cons hnd] at holdsorted
  have hheadle : ∀ x ∈ idCosts arena rest, nd.path_cost ≤ x :=
    (List.pairwise_cons.mp holdsorted).1
  have htailsorted : (idCosts arena rest).Pairwise (· ≤ ·) :=
    (List.pairwise_cons.mp holdsorted).2
  have hcoldmem : nd.path_cost ∈ idCosts arena (i :: rest) :=
    mem_idCosts_iff.mpr ⟨i, List.mem_cons_self _ _, nd, hnd, rfl⟩
  have htailmem : ∀ x ∈ idCosts arena rest, x ∈ idCosts arena (i :: rest) := by
    intro x hx
    rw [idCosts_cons hnd]
    exact List.mem_cons_of_mem _ hx
  refine ⟨?_, ?_, ?_, ?_⟩
  · intro c1 hc1 c2 hc2
    rw [hcosts] at hc1 hc2
    rcases List.mem_append.mp hc1 with hc1 | hc1 <;>
      rcases List.mem_append.mp hc2 with hc2 | hc2
    · exact hB.band c1 (htailmem _ hc1) c2 (htailmem _ hc2)
    · rw [hextc c2 hc2]
      have := hB.band c1 (htailmem _ hc1) nd.path_cost hcoldmem
      omega
    · rw [hextc c1 hc1]
      have := hheadle c2 hc2
      omega
    · rw [hextc c1 hc1, hextc c2 hc2]
      omega
  · rw [hcosts, List.pairwise_append]
    refine ⟨htailsorted, pairwise_le_of_const hextc, ?_⟩
    intro x hx y hy
    rw [hextc y hy]
    have := hB.band x (htailmem _ hx) nd.path_cost hcoldmem
    omega
  · intro j hj nd' hnd' m hm
    rcases List.mem_append.mp hj with hj | hj
    · have hjlt := hrestlt j hj
      rw [List.getElem?_append_left hjlt] at hnd'
      exact hB.dist_exact j (List.mem_cons_of_mem _ hj) nd' hnd' m hm
    · rcases List.mem_map.mp hj with ⟨k, hk, rfl⟩
      have hnd'' : ext[k]? = some nd' := by
        rw [← getElem?_append_offset arena ext k]
        exact hnd'
      have hmem : nd' ∈ ext := List.getElem?_mem hnd''
      have hcost : nd'.path_cost = nd.path_cost + 1 := (h3 nd' hmem).2.1
      rw [hcost]
      by_contra hcon
      push_neg at hcon
      have hmle : m ≤ nd.path_cost := by omega
      rcases bfs_reach_le_covered hU hB hnd m nd'.state hm hmle with hv | hf
      · exact (h4 nd' hmem).1 (List.mem_cons_of_mem _ hv)
      · rw [idStates_cons hnd] at hf
        rcases List.mem_cons.mp hf with heq | hf
        · exact (h4 nd' hmem).1 (by rw [heq]; exact List.mem_cons_self _ _)
        · exact (h4 nd' hmem).2 hf
  · intro s m hs
    rcases hB.covered s m hs with hv | hf | hall
    · exact Or.inl (List.mem_cons_of_mem _ hv)
    · rw [idStates_cons hnd] at hf
      rcases List.mem_cons.mp hf with heq | hf
      · exact Or.inl (by rw [heq]; exact List.mem_cons_self _ _)
      · refine Or.inr (Or.inl ?_)
        rw [idStates_append_ids, hidrest]
        exact List.mem_append.mpr (Or.inl hf)
    · have hcm : nd.path_cost ≤ m := hall nd.path_cost hcoldmem
      by_cases hmc : m = nd.path_cost
      · rcases bfs_reach_le_covered hU hB hnd m s hs (by omega) with hv | hf
        · exact Or.inl (List.mem_cons_of_mem _ hv)
        · rw [idStates_cons hnd] at hf
          rcases List.mem_cons.mp hf with heq | hf
          · exact Or.inl (by rw [heq]; exact List.mem_cons_self _ _)
          · refine Or.inr (Or.inl ?_)
            rw [idStates_append_ids, hidrest]
            exact List.mem_append.mpr (Or.inl hf)
      · refine Or.inr (Or.inr ?_)
        intro x hx
        rw [hcosts] at hx
        rcases List.mem_append.mp hx with hx | hx
        · exact hall x (htailmem _ hx)
        · rw [hextc x hx]
          omega

theorem bfsinv_init (b : Board) (s0 : State) :
    BfsInv b s0 [⟨s0, none, none, 0⟩] [0] [] := by
  refine ⟨?_, ?_, ?_, ?_⟩
  · intro c1 hc1 c2 hc2
    rw [idCosts_cons rfl] at hc1
    rcases List.mem_cons.mp hc1 with h | h
    · rw [h]
      exact Nat.zero_le _
    · cases h
  · rw [idCosts_cons rfl]
    refine List.Pairwise.cons ?_ List.Pairwise.nil
    intro y hy
    cases hy
  · intro j hj nd hnd m _
    rw [List.mem_singleton] at hj
    subst hj
    cases hnd
    exact Nat.zero_le m
  · intro s m hs
    rcases Nat.eq_zero_or_pos m with hm | hm
    · subst hm
      rw [reachN_zero] at hs
      subst hs
      refine Or.inr (Or.inl ?_)
      rw [idStates_cons rfl]
      exact List.mem_cons_self _ _
    · refine Or.inr (Or.inr ?_)
      intro c hc
      rw [idCosts_cons rfl] at hc
      rcases List.mem_cons.mp hc with h | h
      · rw [h]
        exact Nat.zero_le m
      · cases h

theorem uloop_bfs_optimal {b : Board} {s0 : State} {finalPos : Pos} :
    ∀ (fuel : Nat) (arena : List Node) (frontier : List Nat) (visited : List State),
    UInv b s0 finalPos arena frontier visited →
    BfsInv b s0 arena frontier visited →
    ∀ aF g, uloop b finalPos false fuel arena frontier visited = .found aF g →
      ∃ nd : Node, aF[g]? = some nd ∧
        ∀ m s, ReachN b s0 m s → isGoal finalPos s = true → nd.path_cost ≤ m := by
  intro fuel
  induction fuel with
  | zero =>
    intro arena frontier visited _ _ aF g h
    rw [uloop_zero] at h
    cases h
  | succ fuel ih =>
    intro arena frontier visited hU hB aF g h
    cases frontier with
    | nil =>
      rw [uloop_nil] at h
      cases h
    | cons i rest =>
      cases hnd : arena[i]? with
      | none =>
        rw [uloop_cons_none hnd] at h
        cases h
      | some nd =>
        by_cases hg : isGoal finalPos nd.state = true
        · rw [uloop_cons hnd, if_pos hg] at h
          injection h with h1 h2
          subst h1
          subst h2
          refine ⟨nd, hnd, fun m s hm hgs => ?_⟩
          have hsu : InUniv b s0 s := reachN_inUniv hm
          have hndu : InUniv b s0 nd.state :=
            hU.arena_univ nd (List.getElem?_mem hnd)
          have heq : s = nd.state := goal_state_unique hsu hndu hgs hg
          exact hB.dist_exact i (List.mem_cons_self _ _) nd hnd m (heq ▸ hm)
        · have hg' : isGoal finalPos nd.state = false := by
            rcases Bool.eq_false_or_eq_true (isGoal finalPos nd.state) with hh | hh
            · exact absurd hh hg
            · exact hh
          rw [uloop_cons hnd, if_neg hg] at h
          exact ih _ _ _ (uinv_step false hU hnd hg' _ _ rfl)
            (bfsinv_step hU hB hnd _ _ rfl) aF g h

/-! Fuel sufficiency for the uninformed search. -/

theorem uloop_no_out {b : Board} {s0 : State} {finalPos : Pos} (lifo : Bool) :
    ∀ (fuel : Nat) (arena : List Node) (frontier : List Nat) (visited : List State),
    UInv b s0 finalPos arena frontier visited →
    (stateUniverse b s0).dedup.length + 1 ≤ fuel + visited.length →
    (∃ aF g, uloop b finalPos lifo fuel arena frontier visited = .found aF g) ∨
      uloop b finalPos lifo fuel arena frontier visited = .notFound := by
  intro fuel
  induction fuel with
  | zero =>
    intro arena frontier visited hU hfuel
    exfalso
    have hsub : visited ⊆ (stateUniverse b s0).dedup := fun s hs =>
      List.mem_dedup.mpr (mem_stateUniverse_iff.mpr (hU.visited_univ s hs))
    have hlen := (List.subperm_of_subset hU.visited_nodup hsub).length_le
    omega
  | succ fuel ih =>
    intro arena frontier visited hU hfuel
    cases frontier with
    | nil =>
      exact Or.inr (uloop_nil b finalPos lifo fuel arena visited)
    | cons i rest =>
      have hilt : i < arena.length := hU.ids_lt i (List.mem_cons_self _ _)
      cases hnd : arena[i]? with
      | none =>
        exfalso
        rw [List.getElem?_eq_none_iff] at hnd
        omega
      | some nd =>
        by_cases hg : isGoal finalPos nd.state = true
        · rw [uloop_cons hnd, if_pos hg]
          exact Or.inl ⟨arena, i, rfl⟩
        · have hg' : isGoal finalPos nd.state = false := by
            rcases Bool.eq_false_or_eq_true (isGoal finalPos nd.state) with hh | hh
            · exact absurd hh hg
            · exact hh
          rw [uloop_cons hnd, if_neg hg]
          refine ih _ _ _ (uinv_step lifo hU hnd hg' _ _ rfl) ?_
          rw [List.length_cons]
          omega

/-! Top-level facts about the uninformed search. -/

theorem uninformed_found_spec {b : Board} {s0 : State} {finalPos : Pos} {lifo : Bool}
    {aF : List Node} {g : Nat}
    (h : uninformed_graph_search b s0 finalPos lifo = .found aF g) :
    ArenaOk b s0 aF ∧ ∃ nd : Node, aF[g]? = some nd ∧ isGoal finalPos nd.state = true :=
  (uloop_spec lifo (searchFuel b s0) _ _ _ (uinv_init b s0 finalPos)).1 aF g h

theorem uninformed_notFound_spec {b : Board} {s0 : State} {finalPos : Pos} {lifo : Bool}
    (h : uninformed_graph_search b s0 finalPos lifo = .notFound) :
    ∀ n s, ReachN b s0 n s → isGoal finalPos s = false :=
  (uloop_spec lifo (searchFuel b s0) _ _ _ (uinv_init b s0 finalPos)).2 h

theorem uninformed_total (b : Board) (s0 : State) (finalPos : Pos) (lifo : Bool) :
    (∃ aF g, uninformed_graph_search b s0 finalPos lifo = .found aF g) ∨
      uninformed_graph_search b s0 finalPos lifo = .notFound := by
  refine uloop_no_out lifo (searchFuel b s0) _ _ _ (uinv_init b s0 finalPos) ?_
  unfold searchFuel
  simp

theorem uninformed_bfs_minimal {b : Board} {s0 : State} {finalPos : Pos}
    {aF : List Node} {g : Nat}
    (h : uninformed_graph_search b s0 finalPos false = .found aF g) :
    ∃ nd : Node, aF[g]? = some nd ∧
      ∀ m s, ReachN b s0 m s → isGoal finalPos s = true → nd.path_cost ≤ m :=
  uloop_bfs_optimal (searchFuel b s0) _ _ _ (uinv_init b s0 finalPos)
    (bfsinv_init b s0) aF g h

theorem solution_path_of_found {b : Board} {s0 : State} {aF : List Node} {g : Nat}
    (hok : ArenaOk b s0 aF) {nd : Node} (hnd : aF[g]? = some nd) :
    ∃ tail, solution_path aF g = (s0, none) :: tail ∧
      replayEnd b s0 tail = some nd.state ∧
      (solution_path aF g).length = nd.path_cost + 1 ∧
      (solution_path aF g).getLast? = some (nd.state, nd.action) :=
  chainTo_spec hok g nd hnd

/-- C1: for every board and start state from which the goal is reachable,
breadth-first search (`uninformed_graph_search` with `lifo=False`) returns a
path whose number of actions (one less than the path length) equals the
minimum over all action sequences transforming the start state into a goal
state: some goal-reaching action sequence has exactly that many actions, and
no goal-reaching action sequence has fewer. -/
theorem bfs_returns_minimal_path (b : Board) (s0 : State) (finalPos : Pos)
    (hreach : GoalReachable b s0 finalPos) :
    ∃ aF g, uninformed_graph_search b s0 finalPos false = .found aF g ∧
      (∃ acts s', runActions b s0 acts = some s' ∧ isGoal finalPos s' = true ∧
        acts.length + 1 = (solution_path aF g).length) ∧
      (∀ acts s', runActions b s0 acts = some s' → isGoal finalPos s' = true →
        (solution_path aF g).length ≤ acts.length + 1) := by
  rcases uninformed_total b s0 finalPos false with ⟨aF, g, hfound⟩ | hnf
  · obtain ⟨hok, nd, hnd, hgoal⟩ := uninformed_found_spec hfound
    obtain ⟨tail, hpath, hrep, hlen, _⟩ := solution_path_of_found hok hnd
    obtain ⟨ndm, hndm, hmin⟩ := uninformed_bfs_minimal hfound
    rw [hnd] at hndm
    injection hndm with he
    subst he
    refine ⟨aF, g, hfound, ?_, ?_⟩
    · obtain ⟨hrun2, hlen2⟩ := replayEnd_runActions b tail s0 nd.state hrep
      refine ⟨pathActions tail, nd.state, hrun2, hgoal, ?_⟩
      rw [hpath, List.length_cons, hlen2]
    · intro acts s' hrun' hgoal'
      have hm := hmin acts.length s' ⟨acts, rfl, hrun'⟩ hgoal'
      rw [hlen]
      omega
  · exfalso
    obtain ⟨acts, s', hrun, hgoal⟩ := hreach
    have hng := uninformed_notFound_spec hnf acts.length s' ⟨acts, rfl, hrun⟩
    rw [hng] at hgoal
    cases hgoal

/-- Witness for C1: the 1×2 open board with no dirt, start at (0,0) and final
position (1,0); moving right reaches the goal. -/
theorem bfs_returns_minimal_path_witness :
    GoalReachable ⟨[[true, true]]⟩ ⟨(0, 0), [[0, 0]]⟩ (1, 0) ∧
    (∃ aF g, uninformed_graph_search ⟨[[true, true]]⟩ ⟨(0, 0), [[0, 0]]⟩ (1, 0) false =
        .found aF g ∧
      (∃ acts s', runActions ⟨[[true, true]]⟩ ⟨(0, 0), [[0, 0]]⟩ acts = some s' ∧
        isGoal (1, 0) s' = true ∧ acts.length + 1 = (solution_path aF g).length) ∧
      (∀ acts s', runActions ⟨[[true, true]]⟩ ⟨(0, 0), [[0, 0]]⟩ acts = some s' →
        isGoal (1, 0) s' = true → (solution_path aF g).length ≤ acts.length + 1)) := by
  have hr : GoalReachable ⟨[[true, true]]⟩ ⟨(0, 0), [[0, 0]]⟩ (1, 0) :=
    ⟨[Action.right], ⟨(1, 0), [[0, 0]]⟩, by decide, by decide⟩
  exact ⟨hr, bfs_returns_minimal_path _ _ _ hr⟩

/-! Lemmas about the priority selection of the informed search. -/

theorem keyLt_iff {k1 k2 : Nat × Nat} :
    keyLt k1 k2 = true ↔ (k1.1 < k2.1 ∨ (k1.1 = k2.1 ∧ k1.2 < k2.2)) := by
  unfold keyLt
  rw [Bool.or_eq_true, Bool.and_eq_true]
  rw [decide_eq_true_eq, decide_eq_true_eq, beq_iff_eq]

theorem keyLt_eq_false_iff {k1 k2 : Nat × Nat} :
    keyLt k1 k2 = false ↔ (k2.1 < k1.1 ∨ (k1.1 = k2.1 ∧ k2.2 ≤ k1.2)) := by
  rw [← Bool.not_eq_true, keyLt_iff]
  omega

theorem selectMin_eq_none {key : Nat → Nat × Nat} : ∀ {l : List Nat},
    selectMin key l = none ↔ l = [] := by
  intro l
  cases l with
  | nil => simp [selectMin]
  | cons i rest =>
    constructor
    · intro h
      exfalso
      unfold selectMin at h
      cases hrec : selectMin key rest with
      | none =>
        rw [hrec] at h
        have h2 : some (i, ([] : List Nat)) = (none : Option (Nat × List Nat)) := h
        cases h2
      | some p =>
        obtain ⟨j, rest'⟩ := p
        rw [hrec] at h
        have h2 : (if keyLt (key j) (key i) = true then some (j, i :: rest')
            else some (i, rest)) = (none : Option (Nat × List Nat)) := h
        by_cases hk : keyLt (key j) (key i) = true
        · rw [if_pos hk] at h2
          cases h2
        · rw [if_neg hk] at h2
          cases h2
    · intro h
      cases h

theorem selectMin_perm (key : Nat → Nat × Nat) :
    ∀ (l : List Nat) (i : Nat) (rest : List Nat),
      selectMin key l = some (i, rest) → (i :: rest).Perm l := by
  intro l
  induction l with
  | nil =>
    intro i rest h
    cases h
  | cons x xs ih =>
    intro i rest h
    unfold selectMin at h
    cases hrec : selectMin key xs with
    | none =>
      rw [hrec] at h
      have h2 : some (x, ([] : List Nat)) = some (i, rest) := h
      injection h2 with h'
      rw [Prod.mk.injEq] at h'
      obtain ⟨rfl, rfl⟩ := h'
      rw [selectMin_eq_none.mp hrec]
    | some p =>
      obtain ⟨j, rest'⟩ := p
      rw [hrec] at h
      have h2 : (if keyLt (key j) (key x) = true then some (j, x :: rest')
          else some (x, xs)) = some (i, rest) := h
      by_cases hk : keyLt (key j) (key x) = true
      · rw [if_pos hk] at h2
        injection h2 with h'
        rw [Prod.mk.injEq] at h'
        obtain ⟨rfl, rfl⟩ := h'
        exact (List.Perm.swap x j rest').trans ((ih j rest' hrec).cons x)
      · rw [if_neg hk] at h2
        injection h2 with h'
        rw [Prod.mk.injEq] at h'
        obtain ⟨rfl, rfl⟩ := h'
        exact List.Perm.refl _

theorem selectMin_min (key : Nat → Nat × Nat) :
    ∀ (l : List Nat) (i : Nat) (rest : List Nat),
      selectMin key l = some (i, rest) → ∀ j ∈ l, keyLt (key j) (key i) = false := by
  intro l
  induction l with
  | nil =>
    intro i rest h
    cases h
  | cons x xs ih =>
    intro i rest h j hj
    unfold selectMin at h
    cases hrec : selectMin key xs with
    | none =>
      rw [hrec] at h
      have h2 : some (x, ([] : List Nat)) = some (i, rest) := h
      injection h2 with h'
      rw [Prod.mk.injEq] at h'
      obtain ⟨rfl, rfl⟩ := h'
      have hxs : xs = [] := selectMin_eq_none.mp hrec
      subst hxs
      rw [List.mem_singleton] at hj
      subst hj
      rw [keyLt_eq_false_iff]
      omega
    | some p =>
      obtain ⟨jm, rest'⟩ := p
      rw [hrec] at h
      have h2 : (if keyLt (key jm) (key x) = true then some (jm, x :: rest')
          else some (x, xs)) = some (i, rest) := h
      by_cases hk : keyLt (key jm) (key x) = true
      · rw [if_pos hk] at h2
        injection h2 with h'
        rw [Prod.mk.injEq] at h'
        obtain ⟨rfl, rfl⟩ := h'
        rcases List.mem_cons.mp hj with rfl | hj
        · rw [keyLt_iff] at hk
          rw [keyLt_eq_false_iff]
          omega
        · exact ih jm rest' hrec j hj
      · rw [if_neg hk] at h2
        injection h2 with h'
        rw [Prod.mk.injEq] at h'
        obtain ⟨rfl, rfl⟩ := h'
        rcases List.mem_cons.mp hj with rfl | hj
        · rw [keyLt_eq_false_iff]
          omega
        · have h1 := ih jm rest' hrec j hj
          have h2b : keyLt (key jm) (key x) = false := by
            rcases Bool.eq_false_or_eq_true (keyLt (key jm) (key x)) with hh | hh
            · exact absurd hh hk
            · exact hh
          rw [keyLt_eq_false_iff] at h1 h2b ⊢
          omega

/-! Lemmas about the best-known-cost table. -/

theorem find?_filter_of_imp {α : Type} (l : List α) (p q : α → Bool)
    (h : ∀ e, p e = true → q e = true) :
    (l.filter q).find? p = l.find? p := by
  induction l with
  | nil => rfl
  | cons x xs ih =>
    cases hq : q x with
    | true =>
      rw [List.filter_cons_of_pos hq]
      cases hp : p x with
      | true => rw [List.find?_cons_of_pos _ hp, List.find?_cons_of_pos _ hp]
      | false =>
        rw [List.find?_cons_of_neg _ (by simp [hp]), List.find?_cons_of_neg _ (by simp [hp]), ih]
    | false =>
      have hp : p x = false := by
        cases hpc : p x with
        | false => rfl
        | true =>
          rw [h x hpc] at hq
          cases hq
      rw [List.filter_cons_of_neg (by simp [hq]), List.find?_cons_of_neg _ (by simp [hp]), ih]

theorem bestGet_bestSet_same (best : List (State × Nat)) (s : State) (c : Nat) :
    bestGet (bestSet best s c) s = some c := by
  unfold bestGet bestSet
  rw [List.find?_cons_of_pos _ (by simp)]
  rfl

theorem bestGet_bestSet_other (best : List (State × Nat)) (s t : State) (c : Nat)
    (h : t ≠ s) :
    bestGet (bestSet best s c) t = bestGet best t := by
  unfold bestGet bestSet
  rw [List.find?_cons_of_neg _ (by
    simp only [beq_iff_eq]
    exact fun hh => h hh.symm)]
  rw [find?_filter_of_imp best _ _ (by
    intro e he
    rw [beq_iff_eq] at he
    simp only [Bool.not_eq_true']
    rw [beq_eq_false_iff_ne]
    rw [he]
    exact h)]

/-! Path pruning: any reachable state is reachable within the universe size. -/

theorem runActions_split (b : Board) (s0 : State) (acts : List Action) (e : State)
    (h : runActions b s0 acts = some e) (k : Nat) :
    ∃ t, runActions b s0 (acts.take k) = some t ∧
      runActions b t (acts.drop k) = some e := by
  have hsplit := runActions_append b s0 (acts.take k) (acts.drop k)
  rw [List.take_append_drop, h] at hsplit
  cases hkt : runActions b s0 (acts.take k) with
  | none =>
    rw [hkt] at hsplit
    cases hsplit
  | some t =>
    rw [hkt] at hsplit
    exact ⟨t, rfl, hsplit.symm⟩

theorem reach_prune {b : Board} {s0 : State} :
    ∀ (m : Nat) (s : State), ReachN b s0 m s →
      ∃ m', m' + 1 ≤ (stateUniverse b s0).dedup.length ∧ ReachN b s0 m' s := by
  intro m
  induction m using Nat.strong_induction_on with
  | _ m ihm =>
    intro s hs
    by_cases hm : m + 1 ≤ (stateUniverse b s0).dedup.length
    · exact ⟨m, hm, hs⟩
    · obtain ⟨acts, hlen, hrun⟩ := hs
      have hmaps : ∀ k ∈ Finset.range (m + 1),
          (runActions b s0 (acts.take k)).getD s0 ∈
            (stateUniverse b s0).dedup.toFinset := by
        intro k _
        obtain ⟨t, ht, _⟩ := runActions_split b s0 acts s hrun k
        rw [ht]
        rw [Option.getD_some]
        rw [List.mem_toFinset, List.mem_dedup]
        exact mem_stateUniverse_iff.mpr (runActions_inUniv ht)
      have hcard : ((stateUniverse b s0).dedup.toFinset).card <
          (Finset.range (m + 1)).card := by
        rw [Finset.card_range]
        rw [List.toFinset_card_of_nodup (List.nodup_dedup _)]
        omega
      obtain ⟨k1, hk1, k2, hk2, hne, heq⟩ :=
        Finset.exists_ne_map_eq_of_card_lt_of_maps_to hcard hmaps
      rw [Finset.mem_range] at hk1 hk2
      have hcut : ∀ a1 a2 : Nat, a1 < a2 → a2 ≤ m →
          (runActions b s0 (acts.take a1)).getD s0 =
            (runActions b s0 (acts.take a2)).getD s0 →
          ∃ m', m' + 1 ≤ (stateUniverse b s0).dedup.length ∧ ReachN b s0 m' s := by
        intro a1 a2 hlt hle hteq
        obtain ⟨t1, ht1, _⟩ := runActions_split b s0 acts s hrun a1
        obtain ⟨t2, ht2, hd2⟩ := runActions_split b s0 acts s hrun a2
        rw [ht1, ht2] at hteq
        rw [Option.getD_some, Option.getD_some] at hteq
        subst hteq
        have hnew : runActions b s0 (acts.take a1 ++ acts.drop a2) = some s := by
          rw [runActions_append, ht1]
          exact hd2
        have hlen2 : (acts.take a1 ++ acts.drop a2).length < m := by
          rw [List.length_append, List.length_take, List.length_drop, hlen]
          omega
        exact ihm _ hlen2 s ⟨acts.take a1 ++ acts.drop a2, rfl, hnew⟩
      rcases Nat.lt_or_ge k1 k2 with hlt | hge
      · exact hcut k1 k2 hlt (by omega) heq
      · have hlt : k2 < k1 := by omega
        exact hcut k2 k1 hlt (by omega) heq.symm

/-! Consistency of the modelled heuristic. -/

theorem manhattan_movePos_le {a : Action} {q p : Pos} (hm : movePos a q = some p)
    (f : Pos) : manhattan q f ≤ manhattan p f + 1 := by
  obtain ⟨x, y⟩ := q
  obtain ⟨fx, fy⟩ := f
  cases a with
  | clean => cases hm
  | up =>
    have hm' : (if y = 0 then none else some (x, y - 1)) = some p := hm
    split at hm'
    · cases hm'
    · injection hm' with hp
      subst hp
      show Nat.dist x fx + Nat.dist y fy ≤ Nat.dist x fx + Nat.dist (y - 1) fy + 1
      unfold Nat.dist
      omega
  | down =>
    injection hm with hp
    subst hp
    show Nat.dist x fx + Nat.dist y fy ≤ Nat.dist x fx + Nat.dist (y + 1) fy + 1
    unfold Nat.dist
    omega
  | left =>
    have hm' : (if x = 0 then none else some (x - 1, y)) = some p := hm
    split at hm'
    · cases hm'
    · injection hm' with hp
      subst hp
      show Nat.dist x fx + Nat.dist y fy ≤ Nat.dist (x - 1) fx + Nat.dist y fy + 1
      unfold Nat.dist
      omega
  | right =>
    injection hm with hp
    subst hp
    show Nat.dist x fx + Nat.dist y fy ≤ Nat.dist (x + 1) fx + Nat.dist y fy + 1
    unfold Nat.dist
    omega

theorem countP_le_set_add_one (l : List Nat) (p : Nat → Bool) :
    ∀ (i v : Nat), l.countP p ≤ (l.set i v).countP p + 1 := by
  induction l with
  | nil =>
    intro i v
    simp
  | cons x xs ih =>
    intro i v
    cases i with
    | zero =>
      rw [List.set_cons_zero, List.countP_cons, List.countP_cons]
      cases hpx : p x <;> cases hpv : p v <;> simp [hpx, hpv] <;> omega
    | succ i' =>
      rw [List.set_cons_succ, List.countP_cons, List.countP_cons]
      have := ih i' v
      omega

theorem dirtyCount_le_dirtSet_add_one (d : List (List Nat)) :
    ∀ (x y v : Nat), dirtyCount d ≤ dirtyCount (dirtSet d (x, y) v) + 1 := by
  induction d with
  | nil =>
    intro x y v
    simp [dirtyCount, dirtSet]
  | cons r rs ih =>
    intro x y v
    cases y with
    | zero =>
      show dirtyCount (r :: rs) ≤
        dirtyCount ((r :: rs).set 0 (((r :: rs).getD 0 []).set x v)) + 1
      rw [List.getD_cons_zero, List.set_cons_zero]
      unfold dirtyCount
      rw [List.map_cons, List.map_cons, List.sum_cons, List.sum_cons]
      have := countP_le_set_add_one r (fun w => decide (0 < w)) x v
      omega
    | succ y' =>
      show dirtyCount (r :: rs) ≤
        dirtyCount ((r :: rs).set (y' + 1) (((r :: rs).getD (y' + 1) []).set x v)) + 1
      rw [List.getD_cons_succ, List.set_cons_succ]
      unfold dirtyCount
      rw [List.map_cons, List.map_cons, List.sum_cons, List.sum_cons]
      have h := ih x y' v
      unfold dirtyCount dirtSet at h
      dsimp only at h
      omega

theorem state_distance_consistent (b : Board) (finalPos : Pos) :
    ∀ (s : State) (a : Action) (s' : State), applyAction b s a = some s' →
      state_distance s finalPos ≤ state_distance s' finalPos + 1 := by
  intro s a s' hap
  rcases applyAction_cases hap with ⟨p, hm, _, rfl⟩ | ⟨_, hd, rfl⟩
  · show manhattan s.pos finalPos + dirtyCount s.dirt ≤
      manhattan p finalPos + dirtyCount s.dirt + 1
    have := manhattan_movePos_le hm finalPos
    omega
  · show manhattan s.pos finalPos + dirtyCount s.dirt ≤
      manhattan s.pos finalPos +
        dirtyCount (dirtSet s.dirt s.pos (dirtAt s.dirt s.pos - 1)) + 1
    have h2 := dirtyCount_le_dirtSet_add_one s.dirt s.pos.1 s.pos.2
      (dirtAt s.dirt s.pos - 1)
    have h3 : (s.pos.1, s.pos.2) = s.pos := rfl
    rw [h3] at h2
    omega

theorem h_telescope {b : Board} {finalPos : Pos} {h : State → Pos → Nat}
    (hcons : ∀ (s : State) (a : Action) (s' : State), applyAction b s a = some s' →
      h s finalPos ≤ h s' finalPos + 1) :
    ∀ (acts : List Action) (t e : State), runActions b t acts = some e →
      h t finalPos ≤ h e finalPos + acts.length := by
  intro acts
  induction acts with
  | nil =>
    intro t e he
    cases he
    simp
  | cons a rest ih =>
    intro t e he
    have he' : (match applyAction b t a with
      | none => none
      | some s' => runActions b s' rest) = some e := he
    cases hap : applyAction b t a with
    | none =>
      rw [hap] at he'
      cases he'
    | some t' =>
      rw [hap] at he'
      have h1 := hcons t a t' hap
      have h2 := ih t' e he'
      rw [List.length_cons]
      omega

/-! The expansion step of the informed search. -/

theorem aexpand_cons (pi pc : Nat) (a : Action) (s' : State)
    (tl : List (Action × State)) (arena : List Node) (acc : List Nat)
    (best : List (State × Nat)) :
    aexpand pi pc ((a, s') :: tl) arena acc best =
      if (match bestGet best s' with
          | none => true
          | some bc => decide (pc + 1 < bc)) = true then
        aexpand pi pc tl (arena ++ [⟨s', some pi, some a, pc + 1⟩])
          (acc ++ [arena.length]) (bestSet best s' (pc + 1))
      else aexpand pi pc tl arena acc best := rfl

theorem aexpand_spec (pi pc : Nat) (l : List (Action × State)) :
    ∀ (arena : List Node) (acc : List Nat) (best : List (State × Nat)),
    ∃ ext : List Node,
      (aexpand pi pc l arena acc best).1 = arena ++ ext ∧
      (aexpand pi pc l arena acc best).2.1 =
        acc ++ (List.range ext.length).map (fun k => arena.length + k) ∧
      (∀ nd ∈ ext, nd.parent = some pi ∧ nd.path_cost = pc + 1 ∧
        ∃ a, nd.action = some a ∧ (a, nd.state) ∈ l) ∧
      (∀ nd ∈ ext, ∀ bc, bestGet best nd.state = some bc → pc + 1 < bc) ∧
      (∀ s : State,
        (s ∈ ext.map Node.state →
          bestGet (aexpand pi pc l arena acc best).2.2 s = some (pc + 1)) ∧
        (s ∉ ext.map Node.state →
          bestGet (aexpand pi pc l arena acc best).2.2 s = bestGet best s)) ∧
      (∀ a s', (a, s') ∈ l → s' ∈ ext.map Node.state ∨
        ∃ bc, bestGet best s' = some bc ∧ bc ≤ pc + 1) ∧
      (ext.map Node.state).Nodup := by
  induction l with
  | nil =>
    intro arena acc best
    refine ⟨[], by simp [aexpand], by simp [aexpand], by simp, by simp, ?_, by simp,
      by simp⟩
    intro s
    exact ⟨fun hs => absurd hs (by simp), fun _ => rfl⟩
  | cons hd tl ih =>
    intro arena acc best
    obtain ⟨a, s'⟩ := hd
    by_cases hkeep : (match bestGet best s' with
        | none => true
        | some bc => decide (pc + 1 < bc)) = true
    · rw [aexpand_cons, if_pos hkeep]
      obtain ⟨ext', h1, h2, h3, h4, h5, h6, h7⟩ :=
        ih (arena ++ [⟨s', some pi, some a, pc + 1⟩]) (acc ++ [arena.length])
          (bestSet best s' (pc + 1))
      have hnotext' : s' ∉ ext'.map Node.state := by
        intro hcon
        rcases List.mem_map.mp hcon with ⟨nd', hnd', hst⟩
        have := h4 nd' hnd' (pc + 1) (by rw [hst, bestGet_bestSet_same])
        omega
      refine ⟨⟨s', some pi, some a, pc + 1⟩ :: ext', ?_, ?_, ?_, ?_, ?_, ?_, ?_⟩
      · rw [h1, List.append_assoc]
        rfl
      · rw [h2, List.length_append, List.length_singleton, List.length_cons,
          range_map_shift, List.append_assoc]
        rfl
      · intro nd hnd
        rcases List.mem_cons.mp hnd with rfl | hnd
        · exact ⟨rfl, rfl, a, rfl, List.mem_cons_self _ _⟩
        · obtain ⟨hp, hc, a', ha', hm⟩ := h3 nd hnd
          exact ⟨hp, hc, a', ha', List.mem_cons_of_mem _ hm⟩
      · intro nd hnd bc hbc
        rcases List.mem_cons.mp hnd with rfl | hnd
        · have hbc' : (match bestGet best s' with
              | none => true
              | some bc => decide (pc + 1 < bc)) = true := hkeep
          rw [hbc] at hbc'
          exact of_decide_eq_true hbc'
        · have hne : nd.state ≠ s' := by
            intro he
            have := h4 nd hnd (pc + 1) (by rw [he, bestGet_bestSet_same])
            omega
          refine h4 nd hnd bc ?_
          rw [bestGet_bestSet_other best s' nd.state (pc + 1) hne]
          exact hbc
      · intro s
        constructor
        · intro hs
          rw [List.map_cons] at hs
          rcases List.mem_cons.mp hs with rfl | hs
          · by_cases hs' : s ∈ ext'.map Node.state
            · exact (h5 s).1 hs'
            · rw [(h5 s).2 hs', bestGet_bestSet_same]
          · exact (h5 s).1 hs
        · intro hs
          rw [List.map_cons] at hs
          have hne : s ≠ s' := fun he => hs (by rw [he]; exact List.mem_cons_self _ _)
          have hs2 : s ∉ ext'.map Node.state := fun hc =>
            hs (List.mem_cons_of_mem _ hc)
          rw [(h5 s).2 hs2]
          exact bestGet_bestSet_other best s' s (pc + 1) hne
      · intro a0 s0 h0
        rcases List.mem_cons.mp h0 with h0 | h0
        · rw [Prod.mk.injEq] at h0
          obtain ⟨rfl, rfl⟩ := h0
          left
          rw [List.map_cons]
          exact List.mem_cons_self _ _
        · rcases h6 a0 s0 h0 with hc | ⟨bc, hbc, hble⟩
          · left
            rw [List.map_cons]
            exact List.mem_cons_of_mem _ hc
          · by_cases hne : s0 = s'
            · left
              rw [List.map_cons, hne]
              exact List.mem_cons_self _ _
            · right
              refine ⟨bc, ?_, hble⟩
              rw [bestGet_bestSet_other best s' s0 (pc + 1) hne] at hbc
              exact hbc
      · rw [List.map_cons, List.nodup_cons]
        exact ⟨hnotext', h7⟩
    · rw [aexpand_cons, if_neg hkeep]
      obtain ⟨ext, h1, h2, h3, h4, h5, h6, h7⟩ := ih arena acc best
      have hdisc : ∃ bc, bestGet best s' = some bc ∧ bc ≤ pc + 1 := by
        cases hb : bestGet best s' with
        | none =>
          exfalso
          refine hkeep ?_
          have : (match (none : Option Nat) with
              | none => true
              | some bc => decide (pc + 1 < bc)) = true := rfl
          rw [← hb] at this
          exact this
        | some bc =>
          refine ⟨bc, rfl, ?_⟩
          by_contra hcon
          refine hkeep ?_
          have hlt : pc + 1 < bc := by omega
          have : (match (some bc : Option Nat) with
              | none => true
              | some bc => decide (pc + 1 < bc)) = true := by
            show decide (pc + 1 < bc) = true
            exact decide_eq_true hlt
          rw [← hb] at this
          exact this
      refine ⟨ext, h1, h2, ?_, h4, h5, ?_, h7⟩
      · intro nd hnd
        obtain ⟨hp, hc, a', ha', hm⟩ := h3 nd hnd
        exact ⟨hp, hc, a', ha', List.mem_cons_of_mem _ hm⟩
      · intro a0 s0 h0
        rcases List.mem_cons.mp h0 with h0 | h0
        · rw [Prod.mk.injEq] at h0
          obtain ⟨rfl, rfl⟩ := h0
          exact Or.inr hdisc
        · exact h6 a0 s0 h0

/-! Unfolding equations of the informed search loop. -/

theorem aloop_zero (b : Board) (finalPos : Pos) (h : State → Pos → Nat)
    (arena : List Node) (frontier : List Nat) (best : List (State × Nat)) :
    aloop b finalPos h 0 arena frontier best = .outOfFuel := rfl

theorem aloop_sel_none {b : Board} {finalPos : Pos} {h : State → Pos → Nat}
    {fuel : Nat} {arena : List Node} {frontier : List Nat} {best : List (State × Nat)}
    (hsel : selectMin (entryKey h finalPos arena) frontier = none) :
    aloop b finalPos h (fuel + 1) arena frontier best = .notFound := by
  conv_lhs => rw [aloop]
  rw [hsel]

theorem aloop_step {b : Board} {finalPos : Pos} {h : State → Pos → Nat}
    {fuel : Nat} {arena : List Node} {frontier : List Nat} {best : List (State × Nat)}
    {i : Nat} {rest : List Nat} {nd : Node}
    (hsel : selectMin (entryKey h finalPos arena) frontier = some (i, rest))
    (hnd : arena[i]? = some nd) :
    aloop b finalPos h (fuel + 1) arena frontier best =
      if (match bestGet best nd.state with
          | none => false
          | some bc => decide (bc < nd.path_cost)) = true then
        aloop b finalPos h fuel arena rest best
      else if isGoal finalPos nd.state then .found arena i
      else
        aloop b finalPos h fuel
          (aexpand i nd.path_cost (successors b nd.state) arena [] best).1
          (rest ++ (aexpand i nd.path_cost (successors b nd.state) arena [] best).2.1)
          (aexpand i nd.path_cost (successors b nd.state) arena [] best).2.2 := by
  conv_lhs => rw [aloop]
  rw [hsel]
  show (match arena[i]? with
    | none => SearchResult.broken
    | some nd =>
      if (match bestGet best nd.state with
          | none => false
          | some bc => decide (bc < nd.path_cost)) = true then
        aloop b finalPos h fuel arena rest best
      else if isGoal finalPos nd.state then .found arena i
      else
        aloop b finalPos h fuel
          (aexpand i nd.path_cost (successors b nd.state) arena [] best).1
          (rest ++ (aexpand i nd.path_cost (successors b nd.state) arena [] best).2.1)
          (aexpand i nd.path_cost (successors b nd.state) arena [] best).2.2) = _
  rw [hnd]

theorem aloop_step_broken {b : Board} {finalPos : Pos} {h : State → Pos → Nat}
    {fuel : Nat} {arena : List Node} {frontier : List Nat} {best : List (State × Nat)}
    {i : Nat} {rest : List Nat}
    (hsel : selectMin (entryKey h finalPos arena) frontier = some (i, rest))
    (hnd : arena[i]? = none) :
    aloop b finalPos h (fuel + 1) arena frontier best = .broken := by
  conv_lhs => rw [aloop]
  rw [hsel]
  show (match arena[i]? with
    | none => SearchResult.broken
    | some nd =>
      if (match bestGet best nd.state with
          | none => false
          | some bc => decide (bc < nd.path_cost)) = true then
        aloop b finalPos h fuel arena rest best
      else if isGoal finalPos nd.state then .found arena i
      else
        aloop b finalPos h fuel
          (aexpand i nd.path_cost (successors b nd.state) arena [] best).1
          (rest ++ (aexpand i nd.path_cost (successors b nd.state) arena [] best).2.1)
          (aexpand i nd.path_cost (successors b nd.state) arena [] best).2.2) = _
  rw [hnd]

/-! The informed search pops non-stale entries at their exact distance. -/

theorem entry_cost_reach {b : Board} {s0 : State} {arena : List Node}
    (hok : ArenaOk b s0 arena) {i : Nat} {nd : Node} (hnd : arena[i]? = some nd) :
    ReachN b s0 nd.path_cost nd.state := by
  obtain ⟨tail, hpath, hrep, hlen, _⟩ := chainTo_spec hok i nd hnd
  obtain ⟨hrun, hlenp⟩ := replayEnd_runActions b tail s0 nd.state hrep
  refine ⟨pathActions tail, ?_, hrun⟩
  rw [hpath, List.length_cons] at hlen
  omega

theorem apop_dist_exact {b : Board} {s0 : State} {finalPos : Pos} {h : State → Pos → Nat}
    (hcons : ∀ (s : State) (a : Action) (s' : State), applyAction b s a = some s' →
      h s finalPos ≤ h s' finalPos + 1)
    {arena : List Node} {frontier : List Nat} {best : List (State × Nat)}
    (hA : AInv b s0 finalPos h arena frontier best)
    {i : Nat} {rest : List Nat} {nd : Node}
    (hsel : selectMin (entryKey h finalPos arena) frontier = some (i, rest))
    (hnd : arena[i]? = some nd)
    (hns : bestGet best nd.state = some nd.path_cost) :
    ∀ m, ReachN b s0 m nd.state → nd.path_cost ≤ m := by
  intro m hm
  by_contra hcon
  push_neg at hcon
  obtain ⟨acts, hlen, hrun⟩ := hm
  have claim : ∀ j, j ≤ m →
      (∃ t cj, runActions b s0 (acts.take j) = some t ∧
        bestGet best t = some cj ∧ cj ≤ j) ∨
      (∃ j', j' ≤ m ∧ ∃ i', i' ∈ frontier ∧ ∃ nd' : Node, arena[i']? = some nd' ∧
        nd'.path_cost ≤ j' ∧ runActions b nd'.state (acts.drop j') = some nd.state) := by
    intro j
    induction j with
    | zero =>
      intro _
      left
      exact ⟨s0, 0, by rw [List.take_zero]; rfl, hA.start_best, Nat.le_refl 0⟩
    | succ j ihj =>
      intro hj
      rcases ihj (by omega) with ⟨t, cj, ht, hbt, hcj⟩ | hD2
      · rcases hA.settled t cj hbt with ⟨i', hi', nd', hnd', hst', hcost'⟩ | ⟨_, _, hsucc⟩
        · right
          refine ⟨j, by omega, i', hi', nd', hnd', by omega, ?_⟩
          obtain ⟨t2, ht2, hd2⟩ := runActions_split b s0 acts nd.state hrun j
          rw [ht] at ht2
          injection ht2 with ht2
          rw [hst', ht2]
          exact hd2
        · left
          cases hga : acts[j]? with
          | none =>
            rw [List.getElem?_eq_none_iff] at hga
            omega
          | some a =>
            obtain ⟨t1, ht1, _⟩ := runActions_split b s0 acts nd.state hrun (j + 1)
            have htk : acts.take (j + 1) = acts.take j ++ [a] := by
              rw [List.take_succ, hga]
              rfl
            have happ : applyAction b t a = some t1 := by
              have h2 := ht1
              rw [htk, runActions_append, ht] at h2
              have h3 : runActions b t [a] = some t1 := h2
              rw [runActions_singleton] at h3
              exact h3
            obtain ⟨c', hc', hcle⟩ := hsucc a t1 happ
            exact ⟨t1, c', ht1, hc', by omega⟩
      · right
        exact hD2
  rcases claim m (Nat.le_refl m) with ⟨t, cm, ht, hbt, hcm⟩ |
    ⟨j', hj', i', hi', nd', hnd', hcost', hdrop⟩
  · rw [← hlen, List.take_length, hrun] at ht
    injection ht with ht
    rw [ht] at hns
    rw [hns] at hbt
    injection hbt with hbt
    omega
  · have hkmin := selectMin_min _ frontier i rest hsel i' hi'
    have hkey1 : entryKey h finalPos arena i =
        (nd.path_cost + h nd.state finalPos, nd.path_cost) := by
      unfold entryKey
      rw [hnd]
    have hkey2 : entryKey h finalPos arena i' =
        (nd'.path_cost + h nd'.state finalPos, nd'.path_cost) := by
      unfold entryKey
      rw [hnd']
    rw [keyLt_eq_false_iff, hkey1, hkey2] at hkmin
    have htel := h_telescope hcons (acts.drop j') nd'.state nd.state hdrop
    rw [List.length_drop, hlen] at htel
    dsimp only at hkmin
    omega

theorem ainv_stale {b : Board} {s0 : State} {finalPos : Pos} {h : State → Pos → Nat}
    {arena : List Node} {frontier : List Nat} {best : List (State × Nat)}
    {i : Nat} {rest : List Nat} {nd : Node}
    (hA : AInv b s0 finalPos h arena frontier best)
    (hsel : selectMin (entryKey h finalPos arena) frontier = some (i, rest))
    (hnd : arena[i]? = some nd)
    {bc : Nat} (hbc : bestGet best nd.state = some bc) (hlt : bc < nd.path_cost) :
    AInv b s0 finalPos h arena rest best := by
  have hperm := selectMin_perm _ frontier i rest hsel
  have hsub : ∀ j ∈ rest, j ∈ frontier := fun j hj =>
    hperm.subset (List.mem_cons_of_mem _ hj)
  refine ⟨hA.arena_ok, fun j hj => hA.ids_lt j (hsub j hj), hA.arena_univ,
    hA.best_univ, hA.best_bound, hA.start_best,
    fun j hj => hA.entry_best_le j (hsub j hj), ?_⟩
  intro s c hc
  rcases hA.settled s c hc with ⟨i'', hi'', nd'', hnd'', hst'', hcost''⟩ | hexp
  · rcases List.mem_cons.mp (hperm.symm.subset hi'') with heq | hi2
    · exfalso
      subst heq
      rw [hnd] at hnd''
      injection hnd'' with hnd''
      subst hnd''
      rw [← hst''] at hc
      rw [hbc] at hc
      injection hc with hc
      omega
    · exact Or.inl ⟨i'', hi2, nd'', hnd'', hst'', hcost''⟩
  · exact Or.inr hexp

theorem bestGet_singleton {s0 s : State} {c0 c : Nat}
    (h : bestGet [(s0, c0)] s = some c) : s = s0 ∧ c = c0 := by
  unfold bestGet at h
  by_cases hes : s0 = s
  · rw [List.find?_cons_of_pos _ (by simp [hes])] at h
    have h2 : some c0 = some c := h
    injection h2 with h2
    exact ⟨hes.symm, h2.symm⟩
  · rw [List.find?_cons_of_neg _ (by simp [hes])] at h
    have h2 : (none : Option Nat) = some c := h
    cases h2

theorem nonstale_best {b : Board} {s0 : State} {finalPos : Pos} {h : State → Pos → Nat}
    {arena : List Node} {frontier : List Nat} {best : List (State × Nat)}
    (hA : AInv b s0 finalPos h arena frontier best)
    {i : Nat} {nd : Node} (hifront : i ∈ frontier) (hnd : arena[i]? = some nd)
    (hstale : (match bestGet best nd.state with
      | none => false
      | some bc => decide (bc < nd.path_cost)) = false) :
    bestGet best nd.state = some nd.path_cost := by
  obtain ⟨bc, hbc, hle⟩ := hA.entry_best_le i hifront nd hnd
  rw [hbc] at hstale
  rw [decide_eq_false_iff_not] at hstale
  rw [hbc]
  have hbe : bc = nd.path_cost := by omega
  rw [hbe]

theorem ainv_init (b : Board) (s0 : State) (finalPos : Pos) (h : State → Pos → Nat) :
    AInv b s0 finalPos h [⟨s0, none, none, 0⟩] [0] [(s0, 0)] := by
  have hbg : bestGet [(s0, 0)] s0 = some 0 := by
    unfold bestGet
    rw [List.find?_cons_of_pos _ (by simp)]
    rfl
  refine ⟨arenaOk_init b s0, ?_, ?_, ?_, ?_, hbg, ?_, ?_⟩
  · intro i hi
    rw [List.mem_singleton.mp hi]
    simp
  · intro nd hnd
    rw [List.mem_singleton.mp hnd]
    exact inUniv_start b s0
  · intro s c hc
    obtain ⟨heq, _⟩ := bestGet_singleton hc
    rw [heq]
    exact inUniv_start b s0
  · intro s c hc
    obtain ⟨_, rfl⟩ := bestGet_singleton hc
    exact Nat.zero_le _
  · intro i hi nd hnd
    rw [List.mem_singleton.mp hi] at hnd
    have hnd2 : some (⟨s0, none, none, 0⟩ : Node) = some nd := hnd
    injection hnd2 with hnd2
    rw [← hnd2]
    exact ⟨0, hbg, Nat.le_refl 0⟩
  · intro s c hc
    obtain ⟨heq, hceq⟩ := bestGet_singleton hc
    left
    rw [heq, hceq]
    exact ⟨0, List.mem_singleton.mpr rfl, ⟨s0, none, none, 0⟩, rfl, rfl, rfl⟩

theorem ainv_expand {b : Board} {s0 : State} {finalPos : Pos} {h : State → Pos → Nat}
    (hcons : ∀ (s : State) (a : Action) (s' : State), applyAction b s a = some s' →
      h s finalPos ≤ h s' finalPos + 1)
    {arena : List Node} {frontier : List Nat} {best : List (State × Nat)}
    (hA : AInv b s0 finalPos h arena frontier best)
    {i : Nat} {rest : List Nat} {nd : Node}
    (hsel : selectMin (entryKey h finalPos arena) frontier = some (i, rest))
    (hnd : arena[i]? = some nd)
    (hns : bestGet best nd.state = some nd.path_cost)
    (hgoal : isGoal finalPos nd.state = false) :
    AInv b s0 finalPos h
      (aexpand i nd.path_cost (successors b nd.state) arena [] best).1
      (rest ++ (aexpand i nd.path_cost (successors b nd.state) arena [] best).2.1)
      (aexpand i nd.path_cost (successors b nd.state) arena [] best).2.2 := by
  obtain ⟨ext, h1, h2, h3, h4, h5, h6, h7⟩ :=
    aexpand_spec i nd.path_cost (successors b nd.state) arena [] best
  rw [List.nil_append] at h2
  have hperm := selectMin_perm _ frontier i rest hsel
  have hifront : i ∈ frontier := hperm.subset (List.mem_cons_self i rest)
  have hrsub : ∀ j ∈ rest, j ∈ frontier := fun j hj =>
    hperm.subset (List.mem_cons_of_mem _ hj)
  have hndmem : nd ∈ arena := by
    obtain ⟨hlt, heq⟩ := List.getElem?_eq_some.mp hnd
    exact heq ▸ List.getElem_mem hlt
  have hndU : InUniv b s0 nd.state := hA.arena_univ nd hndmem
  have hextU : ∀ nd' ∈ ext, InUniv b s0 nd'.state := by
    intro nd' hnd'
    obtain ⟨_, _, a, _, hmem⟩ := h3 nd' hnd'
    exact applyAction_inUniv hndU (mem_successors_iff.mp hmem)
  have hdist := apop_dist_exact hcons hA hsel hnd hns
  have hcostN : nd.path_cost + 1 ≤ (stateUniverse b s0).dedup.length := by
    obtain ⟨m', hm', hr'⟩ :=
      reach_prune nd.path_cost nd.state (entry_cost_reach hA.arena_ok hnd)
    have := hdist m' hr'
    omega
  have hnewmem : ∀ s ∈ ext.map Node.state,
      ∃ k, k < ext.length ∧ ∃ ndE : Node, ext[k]? = some ndE ∧ ndE.state = s := by
    intro s hs
    obtain ⟨ndE, hndE, hst⟩ := List.mem_map.mp hs
    obtain ⟨k, hk⟩ := List.getElem?_of_mem hndE
    exact ⟨k, (List.getElem?_eq_some.mp hk).1, ndE, hk, hst⟩
  refine ⟨?_, ?_, ?_, ?_, ?_, ?_, ?_, ?_⟩
  · rw [h1]
    refine arenaOk_extend hA.arena_ok hnd ?_
    intro nd' hnd'
    obtain ⟨hp, hc, a, ha, hmem⟩ := h3 nd' hnd'
    exact ⟨hp, hc, a, ha, mem_successors_iff.mp hmem⟩
  · intro j hj
    rw [h1, List.length_append]
    rcases List.mem_append.mp hj with hj | hj
    · have := hA.ids_lt j (hrsub j hj)
      omega
    · rw [h2] at hj
      obtain ⟨k, hk, rfl⟩ := List.mem_map.mp hj
      rw [List.mem_range] at hk
      omega
  · intro nd' hnd'
    rw [h1] at hnd'
    rcases List.mem_append.mp hnd' with hm | hm
    · exact hA.arena_univ nd' hm
    · exact hextU nd' hm
  · intro s c hc
    by_cases hsx : s ∈ ext.map Node.state
    · obtain ⟨ndE, hndE, hst⟩ := List.mem_map.mp hsx
      rw [← hst]
      exact hextU ndE hndE
    · rw [(h5 s).2 hsx] at hc
      exact hA.best_univ s c hc
  · intro s c hc
    by_cases hsx : s ∈ ext.map Node.state
    · rw [(h5 s).1 hsx] at hc
      injection hc with hc
      omega
    · rw [(h5 s).2 hsx] at hc
      exact hA.best_bound s c hc
  · have hs0x : s0 ∉ ext.map Node.state := by
      intro hx
      obtain ⟨ndE, hndE, hst⟩ := List.mem_map.mp hx
      have := h4 ndE hndE 0 (by rw [hst]; exact hA.start_best)
      omega
    rw [(h5 s0).2 hs0x]
    exact hA.start_best
  · intro j hj nd' hnd'
    rw [h1] at hnd'
    rcases List.mem_append.mp hj with hj | hj
    · have hjlt := hA.ids_lt j (hrsub j hj)
      rw [List.getElem?_append, if_pos hjlt] at hnd'
      obtain ⟨bc, hbc, hle⟩ := hA.entry_best_le j (hrsub j hj) nd' hnd'
      by_cases hsx : nd'.state ∈ ext.map Node.state
      · refine ⟨nd.path_cost + 1, (h5 nd'.state).1 hsx, ?_⟩
        obtain ⟨ndE, hndE, hst⟩ := List.mem_map.mp hsx
        have := h4 ndE hndE bc (by rw [hst]; exact hbc)
        omega
      · rw [(h5 nd'.state).2 hsx]
        exact ⟨bc, hbc, hle⟩
    · rw [h2] at hj
      obtain ⟨k, hk, rfl⟩ := List.mem_map.mp hj
      rw [List.mem_range] at hk
      rw [getElem?_append_offset] at hnd'
      have hmem : nd' ∈ ext := by
        obtain ⟨_, heq⟩ := List.getElem?_eq_some.mp hnd'
        exact heq ▸ List.getElem_mem _
      obtain ⟨_, hc, _⟩ := h3 nd' hmem
      have hsx : nd'.state ∈ ext.map Node.state := List.mem_map_of_mem _ hmem
      exact ⟨nd.path_cost + 1, (h5 nd'.state).1 hsx, by omega⟩
  · intro s c hc
    by_cases hsx : s ∈ ext.map Node.state
    · left
      obtain ⟨k, hk, ndE, hkE, hst⟩ := hnewmem s hsx
      refine ⟨arena.length + k, ?_, ndE, ?_, hst, ?_⟩
      · refine List.mem_append.mpr (Or.inr ?_)
        rw [h2]
        exact List.mem_map.mpr ⟨k, List.mem_range.mpr hk, rfl⟩
      · rw [h1, getElem?_append_offset]
        exact hkE
      · obtain ⟨_, hcost, _⟩ := h3 ndE (by
          obtain ⟨_, heq⟩ := List.getElem?_eq_some.mp hkE
          exact heq ▸ List.getElem_mem _)
        rw [(h5 s).1 hsx] at hc
        injection hc with hc
        omega
    · rw [(h5 s).2 hsx] at hc
      rcases hA.settled s c hc with ⟨j, hj, nd', hnd', hst', hcost'⟩ | ⟨hg, hlow, hsucc⟩
      · rcases List.mem_cons.mp (hperm.symm.subset hj) with rfl | hjr
        · -- the popped entry itself: its node is nd, now expanded
          rw [hnd] at hnd'
          injection hnd' with hnd'
          subst hnd'
          have hcc : c = nd.path_cost := by
            rw [← hst'] at hc
            rw [hns] at hc
            injection hc with hc
            omega
          right
          refine ⟨by rw [← hst']; exact hgoal, ?_, ?_⟩
          · intro m hm
            rw [← hst'] at hm
            have := hdist m hm
            omega
          · intro a s' hap
            have hmem : (a, s') ∈ successors b nd.state := by
              rw [mem_successors_iff]
              rw [hst']
              exact hap
            rcases h6 a s' hmem with hsx' | ⟨bc, hbc, hble⟩
            · exact ⟨nd.path_cost + 1, (h5 s').1 hsx', by omega⟩
            · have hnx : s' ∉ ext.map Node.state := by
                intro hx
                obtain ⟨ndE, hndE, hstE⟩ := List.mem_map.mp hx
                have := h4 ndE hndE bc (by rw [hstE]; exact hbc)
                omega
              exact ⟨bc, by rw [(h5 s').2 hnx]; exact hbc, by omega⟩
        · left
          have hjlt := hA.ids_lt j (hrsub j hjr)
          refine ⟨j, List.mem_append.mpr (Or.inl hjr), nd', ?_, hst', hcost'⟩
          rw [h1, List.getElem?_append, if_pos hjlt]
          exact hnd'
      · right
        refine ⟨hg, hlow, ?_⟩
        intro a s' hap
        obtain ⟨c', hc', hcle⟩ := hsucc a s' hap
        by_cases hsx' : s' ∈ ext.map Node.state
        · refine ⟨nd.path_cost + 1, (h5 s').1 hsx', ?_⟩
          obtain ⟨ndE, hndE, hstE⟩ := List.mem_map.mp hsx'
          have := h4 ndE hndE c' (by rw [hstE]; exact hc')
          omega
        · exact ⟨c', by rw [(h5 s').2 hsx']; exact hc', hcle⟩

/-! The termination measure of the informed search. -/

theorem sum_map_le_length_mul (f : State → Nat) (M : Nat) :
    ∀ l : List State, (∀ s ∈ l, f s ≤ M) → (l.map f).sum ≤ l.length * M := by
  intro l
  induction l with
  | nil =>
    intro _
    simp
  | cons x xs ih =>
    intro hb
    rw [List.map_cons, List.sum_cons, List.length_cons]
    have h1 := hb x (List.mem_cons_self x xs)
    have h2 := ih (fun s hs => hb s (List.mem_cons_of_mem _ hs))
    have h3 : (xs.length + 1) * M = xs.length * M + M := by ring
    omega

theorem ameasure_init (b : Board) (s0 : State) :
    ameasure b s0 [(s0, 0)] [0] ≤
      (stateUniverse b s0).dedup.length * (stateUniverse b s0).dedup.length := by
  have hs0mem : s0 ∈ (stateUniverse b s0).dedup :=
    List.mem_dedup.mpr (mem_stateUniverse_iff.mpr (inUniv_start b s0))
  have hperm := List.perm_cons_erase hs0mem
  have hn1 : 0 < (stateUniverse b s0).dedup.length :=
    List.length_pos_of_mem hs0mem
  unfold ameasure
  have hsum :=
    (hperm.map (apot (stateUniverse b s0).dedup.length [(s0, 0)])).sum_eq
  rw [hsum, List.map_cons, List.sum_cons]
  have hbg0 : bestGet [(s0, 0)] s0 = some 0 := by
    unfold bestGet
    rw [List.find?_cons_of_pos _ (by simp)]
    rfl
  have hpot0 : apot (stateUniverse b s0).dedup.length [(s0, 0)] s0 = 0 := by
    unfold apot
    rw [hbg0]
    rfl
  rw [hpot0]
  have hrest : ((((stateUniverse b s0).dedup.erase s0).map
      (apot (stateUniverse b s0).dedup.length [(s0, 0)])).sum ≤
      ((stateUniverse b s0).dedup.erase s0).length *
        ((stateUniverse b s0).dedup.length + 1)) := by
    refine sum_map_le_length_mul _ _ _ ?_
    intro s _
    unfold apot
    cases hbs : bestGet [(s0, 0)] s with
    | none => simp
    | some c =>
      obtain ⟨_, rfl⟩ := bestGet_singleton hbs
      simp
  have hlen : ((stateUniverse b s0).dedup.erase s0).length =
      (stateUniverse b s0).dedup.length - 1 :=
    List.length_erase_of_mem hs0mem
  rw [hlen] at hrest
  rw [List.length_singleton]
  obtain ⟨m, hm⟩ : ∃ m, (stateUniverse b s0).dedup.length = m + 1 :=
    ⟨(stateUniverse b s0).dedup.length - 1, by omega⟩
  rw [hm] at hrest ⊢
  simp only [Nat.add_sub_cancel] at hrest
  nlinarith [hrest]

theorem sum_map_sub_of_pointwise (f g : State → Nat) :
    ∀ (S l : List State), S.Nodup → (∀ s ∈ S, s ∈ l) →
      (∀ s ∈ l, g s ≤ f s) → (∀ s ∈ S, g s + 1 ≤ f s) →
      (l.map g).sum + S.length ≤ (l.map f).sum := by
  intro S
  induction S with
  | nil =>
    intro l _ _ hle _
    simp only [List.length_nil, Nat.add_zero]
    exact List.sum_le_sum hle
  | cons x S' ih =>
    intro l hnd hsub hle hstrict
    have hxl : x ∈ l := hsub x (List.mem_cons_self x S')
    have hperm := List.perm_cons_erase hxl
    have hsumf := (hperm.map f).sum_eq
    have hsumg := (hperm.map g).sum_eq
    rw [hsumf, hsumg, List.map_cons, List.sum_cons, List.map_cons, List.sum_cons]
    have hx := hstrict x (List.mem_cons_self x S')
    have hS'sub : ∀ s ∈ S', s ∈ l.erase x := by
      intro s hs
      refine (List.mem_erase_of_ne ?_).mpr (hsub s (List.mem_cons_of_mem _ hs))
      intro hsx
      exact (List.nodup_cons.mp hnd).1 (hsx ▸ hs)
    have hle' : ∀ s ∈ l.erase x, g s ≤ f s := fun s hs =>
      hle s (List.mem_of_mem_erase hs)
    have hrec := ih (l.erase x) (List.nodup_cons.mp hnd).2 hS'sub hle'
      (fun s hs => hstrict s (List.mem_cons_of_mem _ hs))
    rw [List.length_cons]
    omega

theorem ameasure_expand_lt {b : Board} {s0 : State} {finalPos : Pos}
    {h : State → Pos → Nat}
    (hcons : ∀ (s : State) (a : Action) (s' : State), applyAction b s a = some s' →
      h s finalPos ≤ h s' finalPos + 1)
    {arena : List Node} {frontier : List Nat} {best : List (State × Nat)}
    (hA : AInv b s0 finalPos h arena frontier best)
    {i : Nat} {rest : List Nat} {nd : Node}
    (hsel : selectMin (entryKey h finalPos arena) frontier = some (i, rest))
    (hnd : arena[i]? = some nd)
    (hns : bestGet best nd.state = some nd.path_cost) :
    ameasure b s0 (aexpand i nd.path_cost (successors b nd.state) arena [] best).2.2
        (rest ++ (aexpand i nd.path_cost (successors b nd.state) arena [] best).2.1) <
      ameasure b s0 best frontier := by
  obtain ⟨ext, h1, h2, h3, h4, h5, h6, h7⟩ :=
    aexpand_spec i nd.path_cost (successors b nd.state) arena [] best
  rw [List.nil_append] at h2
  have hdist := apop_dist_exact hcons hA hsel hnd hns
  have hcostN : nd.path_cost + 1 ≤ (stateUniverse b s0).dedup.length := by
    obtain ⟨m', hm', hr'⟩ :=
      reach_prune nd.path_cost nd.state (entry_cost_reach hA.arena_ok hnd)
    have := hdist m' hr'
    omega
  have hndmem : nd ∈ arena := by
    obtain ⟨hlt, heq⟩ := List.getElem?_eq_some.mp hnd
    exact heq ▸ List.getElem_mem hlt
  have hndU : InUniv b s0 nd.state := hA.arena_univ nd hndmem
  have hdrop : ∀ s ∈ ext.map Node.state,
      apot (stateUniverse b s0).dedup.length
        (aexpand i nd.path_cost (successors b nd.state) arena [] best).2.2 s + 1 ≤
      apot (stateUniverse b s0).dedup.length best s := by
    intro s hs
    have hnew := (h5 s).1 hs
    obtain ⟨ndE, hndE, hstE⟩ := List.mem_map.mp hs
    unfold apot
    rw [hnew]
    cases hold : bestGet best s with
    | none =>
      simp only [Option.getD_some, Option.getD_none]
      omega
    | some bc =>
      have := h4 ndE hndE bc (by rw [hstE]; exact hold)
      simp only [Option.getD_some]
      omega
  have hpt : ∀ s ∈ (stateUniverse b s0).dedup,
      apot (stateUniverse b s0).dedup.length
        (aexpand i nd.path_cost (successors b nd.state) arena [] best).2.2 s ≤
      apot (stateUniverse b s0).dedup.length best s := by
    intro s _
    by_cases hs : s ∈ ext.map Node.state
    · have := hdrop s hs
      omega
    · unfold apot
      rw [(h5 s).2 hs]
  have hsubU : ∀ s ∈ ext.map Node.state, s ∈ (stateUniverse b s0).dedup := by
    intro s hs
    obtain ⟨ndE, hndE, hstE⟩ := List.mem_map.mp hs
    obtain ⟨_, _, a, _, hmem⟩ := h3 ndE hndE
    rw [← hstE]
    exact List.mem_dedup.mpr (mem_stateUniverse_iff.mpr
      (applyAction_inUniv hndU (mem_successors_iff.mp hmem)))
  have hkey := sum_map_sub_of_pointwise
    (apot (stateUniverse b s0).dedup.length best)
    (apot (stateUniverse b s0).dedup.length
      (aexpand i nd.path_cost (successors b nd.state) arena [] best).2.2)
    (ext.map Node.state) (stateUniverse b s0).dedup h7 hsubU hpt hdrop
  have hfrlen : frontier.length = rest.length + 1 := by
    have := (selectMin_perm _ frontier i rest hsel).length_eq
    rw [List.length_cons] at this
    omega
  have hflen : (rest ++
      (aexpand i nd.path_cost (successors b nd.state) arena [] best).2.1).length =
      rest.length + ext.length := by
    rw [List.length_append, h2, List.length_map, List.length_range]
  rw [List.length_map] at hkey
  unfold ameasure
  omega

/-! The informed search loop: full specification by induction on the fuel. -/

theorem ainv_empty_no_goal {b : Board} {s0 : State} {finalPos : Pos}
    {h : State → Pos → Nat} {arena : List Node} {best : List (State × Nat)}
    (hA : AInv b s0 finalPos h arena [] best) :
    ∀ m s, ReachN b s0 m s → isGoal finalPos s = false := by
  have hkey : ∀ m s, ReachN b s0 m s → ∃ c, bestGet best s = some c := by
    intro m
    induction m with
    | zero =>
      intro s hs
      rw [reachN_zero] at hs
      subst hs
      exact ⟨0, hA.start_best⟩
    | succ m ihm =>
      intro s hs
      rcases reachN_succ.mp hs with ⟨t, a, ht, happ⟩
      obtain ⟨c, hc⟩ := ihm t ht
      rcases hA.settled t c hc with ⟨j, hj, _⟩ | ⟨_, _, hsucc⟩
      · exact absurd hj (List.not_mem_nil j)
      · obtain ⟨c', hc', _⟩ := hsucc a s happ
        exact ⟨c', hc'⟩
  intro m s hreach
  obtain ⟨c, hc⟩ := hkey m s hreach
  rcases hA.settled s c hc with ⟨j, hj, _⟩ | ⟨hgf, _, _⟩
  · exact absurd hj (List.not_mem_nil j)
  · exact hgf

theorem aloop_spec {b : Board} {s0 : State} {finalPos : Pos} {h : State → Pos → Nat}
    (hcons : ∀ (s : State) (a : Action) (s' : State), applyAction b s a = some s' →
      h s finalPos ≤ h s' finalPos + 1) :
    ∀ (fuel : Nat) (arena : List Node) (frontier : List Nat) (best : List (State × Nat)),
      AInv b s0 finalPos h arena frontier best →
      ameasure b s0 best frontier < fuel →
      (∀ aF g, aloop b finalPos h fuel arena frontier best = .found aF g →
        ArenaOk b s0 aF ∧ ∃ nd : Node, aF[g]? = some nd ∧
          isGoal finalPos nd.state = true ∧
          ∀ m s, ReachN b s0 m s → isGoal finalPos s = true → nd.path_cost ≤ m) ∧
      (aloop b finalPos h fuel arena frontier best = .notFound →
        ∀ m s, ReachN b s0 m s → isGoal finalPos s = false) ∧
      aloop b finalPos h fuel arena frontier best ≠ .outOfFuel ∧
      aloop b finalPos h fuel arena frontier best ≠ .broken := by
  intro fuel
  induction fuel with
  | zero =>
    intro arena frontier best _ hm
    omega
  | succ fuel ih =>
    intro arena frontier best hA hm
    cases hsel : selectMin (entryKey h finalPos arena) frontier with
    | none =>
      rw [aloop_sel_none hsel]
      have hfe : frontier = [] := selectMin_eq_none.mp hsel
      subst hfe
      refine ⟨?_, fun _ => ainv_empty_no_goal hA, ?_, ?_⟩
      · intro aF g hfg
        cases hfg
      · intro hh
        cases hh
      · intro hh
        cases hh
    | some pr =>
      obtain ⟨i, rest⟩ := pr
      have hifront : i ∈ frontier :=
        (selectMin_perm _ frontier i rest hsel).subset (List.mem_cons_self _ _)
      have hilt := hA.ids_lt i hifront
      cases hnd : arena[i]? with
      | none =>
        exfalso
        rw [List.getElem?_eq_none_iff] at hnd
        omega
      | some nd =>
        rw [aloop_step hsel hnd]
        by_cases hstale : (match bestGet best nd.state with
            | none => false
            | some bc => decide (bc < nd.path_cost)) = true
        · rw [if_pos hstale]
          obtain ⟨bc, hbc, hlt'⟩ : ∃ bc, bestGet best nd.state = some bc ∧
              bc < nd.path_cost := by
            cases hbg : bestGet best nd.state with
            | none =>
              rw [hbg] at hstale
              cases hstale
            | some bc =>
              rw [hbg] at hstale
              exact ⟨bc, rfl, of_decide_eq_true hstale⟩
          have hA' := ainv_stale hA hsel hnd hbc hlt'
          have hm' : ameasure b s0 best rest < fuel := by
            have hfr : frontier.length = rest.length + 1 := by
              have := (selectMin_perm _ frontier i rest hsel).length_eq
              rw [List.length_cons] at this
              omega
            unfold ameasure at hm ⊢
            omega
          exact ih arena rest best hA' hm'
        · rw [if_neg hstale]
          rw [Bool.not_eq_true] at hstale
          have hns := nonstale_best hA hifront hnd hstale
          by_cases hg : isGoal finalPos nd.state = true
          · rw [if_pos hg]
            refine ⟨?_, ?_, ?_, ?_⟩
            · intro aF g hfg
              injection hfg with he1 he2
              subst he1
              subst he2
              have hndmem : nd ∈ arena := by
                obtain ⟨hlt2, heq⟩ := List.getElem?_eq_some.mp hnd
                exact heq ▸ List.getElem_mem hlt2
              refine ⟨hA.arena_ok, nd, hnd, hg, ?_⟩
              intro m s hreach hgs
              have hsu : s = nd.state := goal_state_unique (reachN_inUniv hreach)
                (hA.arena_univ nd hndmem) hgs hg
              rw [hsu] at hreach
              exact apop_dist_exact hcons hA hsel hnd hns m hreach
            · intro hh
              cases hh
            · intro hh
              cases hh
            · intro hh
              cases hh
          · rw [if_neg hg]
            rw [Bool.not_eq_true] at hg
            have hA' := ainv_expand hcons hA hsel hnd hns hg
            have hm' := ameasure_expand_lt hcons hA hsel hnd hns
            exact ih _ _ _ hA' (by omega)

theorem informed_spec (b : Board) (s0 : State) (finalPos : Pos) (h : State → Pos → Nat)
    (hcons : ∀ (s : State) (a : Action) (s' : State), applyAction b s a = some s' →
      h s finalPos ≤ h s' finalPos + 1) :
    (∀ aF g, informed_graph_search b s0 finalPos h = .found aF g →
      ArenaOk b s0 aF ∧ ∃ nd : Node, aF[g]? = some nd ∧
        isGoal finalPos nd.state = true ∧
        ∀ m s, ReachN b s0 m s → isGoal finalPos s = true → nd.path_cost ≤ m) ∧
    (informed_graph_search b s0 finalPos h = .notFound →
      ∀ m s, ReachN b s0 m s → isGoal finalPos s = false) ∧
    informed_graph_search b s0 finalPos h ≠ .outOfFuel ∧
    informed_graph_search b s0 finalPos h ≠ .broken := by
  have hminit : ameasure b s0 [(s0, 0)] [0] < astarFuel b s0 := by
    have := ameasure_init b s0
    unfold astarFuel
    omega
  exact aloop_spec hcons (astarFuel b s0) _ _ _ (ainv_init b s0 finalPos h) hminit

theorem informed_total (b : Board) (s0 : State) (finalPos : Pos) (h : State → Pos → Nat)
    (hcons : ∀ (s : State) (a : Action) (s' : State), applyAction b s a = some s' →
      h s finalPos ≤ h s' finalPos + 1) :
    (∃ aF g, informed_graph_search b s0 finalPos h = .found aF g) ∨
      informed_graph_search b s0 finalPos h = .notFound := by
  obtain ⟨_, _, hnout, hnbr⟩ := informed_spec b s0 finalPos h hcons
  cases hres : informed_graph_search b s0 finalPos h with
  | found aF g => exact Or.inl ⟨aF, g, rfl⟩
  | notFound => exact Or.inr rfl
  | outOfFuel => exact absurd hres hnout
  | broken => exact absurd hres hnbr

/-- C2: for every board and start configuration from which the goal is
reachable, A* (`informed_graph_search` with the `state_distance` heuristic)
returns a path, breadth-first search returns a path, and the two paths have
the same length — the heuristic is consistent, so A* pops its goal node at the
exact minimal cost, which breadth-first optimality pins to the same value. -/
theorem astar_matches_bfs_minimal (b : Board) (s0 : State) (finalPos : Pos)
    (hreach : GoalReachable b s0 finalPos) :
    ∃ aFb gb aFa ga,
      uninformed_graph_search b s0 finalPos false = .found aFb gb ∧
      informed_graph_search b s0 finalPos state_distance = .found aFa ga ∧
      (solution_path aFa ga).length = (solution_path aFb gb).length := by
  obtain ⟨acts0, sg, hrun0, hg0⟩ := hreach
  have hreachN : ReachN b s0 acts0.length sg := ⟨acts0, rfl, hrun0⟩
  have hcons := state_distance_consistent b finalPos
  rcases uninformed_total b s0 finalPos false with ⟨aFb, gb, hfb⟩ | hnb
  · rcases informed_total b s0 finalPos state_distance hcons with ⟨aFa, ga, hfa⟩ | hna
    · obtain ⟨hokb, ndb, hndb, hgb⟩ := uninformed_found_spec hfb
      obtain ⟨ndb2, hndb2, hminb⟩ := uninformed_bfs_minimal hfb
      rw [hndb] at hndb2
      injection hndb2 with he
      subst he
      obtain ⟨hoka, nda, hnda, hga2, hmina⟩ :=
        (informed_spec b s0 finalPos state_distance hcons).1 aFa ga hfa
      have hra : ReachN b s0 nda.path_cost nda.state := entry_cost_reach hoka hnda
      have hrb : ReachN b s0 ndb.path_cost ndb.state := entry_cost_reach hokb hndb
      have h1 : nda.path_cost ≤ ndb.path_cost := hmina ndb.path_cost ndb.state hrb hgb
      have h2 : ndb.path_cost ≤ nda.path_cost := hminb nda.path_cost nda.state hra hga2
      obtain ⟨taila, hpa, hrepa, hlena, _⟩ := solution_path_of_found hoka hnda
      obtain ⟨tailb, hpb, hrepb, hlenb, _⟩ := solution_path_of_found hokb hndb
      refine ⟨aFb, gb, aFa, ga, hfb, hfa, ?_⟩
      rw [hlena, hlenb]
      omega
    · have hf := (informed_spec b s0 finalPos state_distance hcons).2.1 hna
        acts0.length sg hreachN
      rw [hg0] at hf
      cases hf
  · have hf := uninformed_notFound_spec hnb acts0.length sg hreachN
    rw [hg0] at hf
    cases hf

theorem astar_matches_bfs_minimal_witness :
    GoalReachable ⟨[[true, true]]⟩ ⟨(0, 0), [[0, 0]]⟩ (1, 0) ∧
    (∃ aFb gb aFa ga,
      uninformed_graph_search ⟨[[true, true]]⟩ ⟨(0, 0), [[0, 0]]⟩ (1, 0) false =
        .found aFb gb ∧
      informed_graph_search ⟨[[true, true]]⟩ ⟨(0, 0), [[0, 0]]⟩ (1, 0) state_distance =
        .found aFa ga ∧
      (solution_path aFa ga).length = (solution_path aFb gb).length) := by
  have hr : GoalReachable ⟨[[true, true]]⟩ ⟨(0, 0), [[0, 0]]⟩ (1, 0) :=
    ⟨[Action.right], ⟨(1, 0), [[0, 0]]⟩, by decide, by decide⟩
  exact ⟨hr, astar_matches_bfs_minimal _ _ _ hr⟩

/-- C3: for every successful result of either search, the reconstructed path
starts with the pair `(start_state, none)` — no action produced the start
state — and replaying it succeeds: each subsequent element carries an action
that, applied by the successor function to the previous element's state,
produces exactly that element's state (this is what `replayEnd` checks element
by element). -/
theorem solution_path_roundtrip (b : Board) (s0 : State) (finalPos : Pos)
    (lifo : Bool) (aF : List Node) (g : Nat)
    (hfound : uninformed_graph_search b s0 finalPos lifo = .found aF g ∨
      informed_graph_search b s0 finalPos state_distance = .found aF g) :
    ∃ tail e, solution_path aF g = (s0, none) :: tail ∧
      replayEnd b s0 tail = some e := by
  have hkey : ArenaOk b s0 aF ∧ ∃ nd : Node, aF[g]? = some nd := by
    rcases hfound with hf | hf
    · obtain ⟨hok, nd, hnd, _⟩ := uninformed_found_spec hf
      exact ⟨hok, nd, hnd⟩
    · obtain ⟨hok, nd, hnd, _, _⟩ := (informed_spec b s0 finalPos state_distance
        (state_distance_consistent b finalPos)).1 aF g hf
      exact ⟨hok, nd, hnd⟩
  obtain ⟨hok, nd, hnd⟩ := hkey
  obtain ⟨tail, hpath, hrep, _, _⟩ := solution_path_of_found hok hnd
  exact ⟨tail, nd.state, hpath, hrep⟩

theorem solution_path_roundtrip_witness :
    (uninformed_graph_search ⟨[[true, true]]⟩ ⟨(0, 0), [[0, 0]]⟩ (1, 0) false =
        .found [⟨⟨(0, 0), [[0, 0]]⟩, none, none, 0⟩,
          ⟨⟨(1, 0), [[0, 0]]⟩, some 0, some Action.right, 1⟩] 1 ∨
      informed_graph_search ⟨[[true, true]]⟩ ⟨(0, 0), [[0, 0]]⟩ (1, 0) state_distance =
        .found [⟨⟨(0, 0), [[0, 0]]⟩, none, none, 0⟩,
          ⟨⟨(1, 0), [[0, 0]]⟩, some 0, some Action.right, 1⟩] 1) ∧
    (∃ tail e,
      solution_path [⟨⟨(0, 0), [[0, 0]]⟩, none, none, 0⟩,
        ⟨⟨(1, 0), [[0, 0]]⟩, some 0, some Action.right, 1⟩] 1 =
        (⟨(0, 0), [[0, 0]]⟩, none) :: tail ∧
      replayEnd ⟨[[true, true]]⟩ ⟨(0, 0), [[0, 0]]⟩ tail = some e) := by
  have hf : uninformed_graph_search ⟨[[true, true]]⟩ ⟨(0, 0), [[0, 0]]⟩ (1, 0) false =
      .found [⟨⟨(0, 0), [[0, 0]]⟩, none, none, 0⟩,
        ⟨⟨(1, 0), [[0, 0]]⟩, some 0, some Action.right, 1⟩] 1 ∨
      informed_graph_search ⟨[[true, true]]⟩ ⟨(0, 0), [[0, 0]]⟩ (1, 0) state_distance =
      .found [⟨⟨(0, 0), [[0, 0]]⟩, none, none, 0⟩,
        ⟨⟨(1, 0), [[0, 0]]⟩, some 0, some Action.right, 1⟩] 1 := Or.inl (by decide)
  exact ⟨hf, solution_path_roundtrip _ _ _ false _ _ hf⟩

/-- C4: for every successful result of either search, the node returned sits
in the arena at the returned index, it is the last element of the
reconstructed path, and its state satisfies the goal condition: position equal
to the final position and every dirt level zero. -/
theorem path_final_state_goal (b : Board) (s0 : State) (finalPos : Pos)
    (lifo : Bool) (aF : List Node) (g : Nat)
    (hfound : uninformed_graph_search b s0 finalPos lifo = .found aF g ∨
      informed_graph_search b s0 finalPos state_distance = .found aF g) :
    ∃ nd : Node, aF[g]? = some nd ∧
      (solution_path aF g).getLast? = some (nd.state, nd.action) ∧
      nd.state.pos = finalPos ∧ allZero nd.state.dirt = true := by
  have hkey : ArenaOk b s0 aF ∧ ∃ nd : Node, aF[g]? = some nd ∧
      isGoal finalPos nd.state = true := by
    rcases hfound with hf | hf
    · exact uninformed_found_spec hf
    · obtain ⟨hok, nd, hnd, hg, _⟩ := (informed_spec b s0 finalPos state_distance
        (state_distance_consistent b finalPos)).1 aF g hf
      exact ⟨hok, nd, hnd, hg⟩
  obtain ⟨hok, nd, hnd, hg⟩ := hkey
  obtain ⟨_, _, _, _, hlast⟩ := solution_path_of_found hok hnd
  obtain ⟨hp, hz⟩ := isGoal_iff.mp hg
  exact ⟨nd, hnd, hlast, hp, hz⟩

theorem path_final_state_goal_witness :
    (uninformed_graph_search ⟨[[true, true]]⟩ ⟨(0, 0), [[0, 0]]⟩ (1, 0) false =
        .found [⟨⟨(0, 0), [[0, 0]]⟩, none, none, 0⟩,
          ⟨⟨(1, 0), [[0, 0]]⟩, some 0, some Action.right, 1⟩] 1 ∨
      informed_graph_search ⟨[[true, true]]⟩ ⟨(0, 0), [[0, 0]]⟩ (1, 0) state_distance =
        .found [⟨⟨(0, 0), [[0, 0]]⟩, none, none, 0⟩,
          ⟨⟨(1, 0), [[0, 0]]⟩, some 0, some Action.right, 1⟩] 1) ∧
    (∃ nd : Node,
      ([⟨⟨(0, 0), [[0, 0]]⟩, none, none, 0⟩,
        ⟨⟨(1, 0), [[0, 0]]⟩, some 0, some Action.right, 1⟩] : List Node)[1]? = some nd ∧
      (solution_path [⟨⟨(0, 0), [[0, 0]]⟩, none, none, 0⟩,
        ⟨⟨(1, 0), [[0, 0]]⟩, some 0, some Action.right, 1⟩] 1).getLast? =
        some (nd.state, nd.action) ∧
      nd.state.pos = (1, 0) ∧ allZero nd.state.dirt = true) := by
  have hf : uninformed_graph_search ⟨[[true, true]]⟩ ⟨(0, 0), [[0, 0]]⟩ (1, 0) false =
      .found [⟨⟨(0, 0), [[0, 0]]⟩, none, none, 0⟩,
        ⟨⟨(1, 0), [[0, 0]]⟩, some 0, some Action.right, 1⟩] 1 ∨
      informed_graph_search ⟨[[true, true]]⟩ ⟨(0, 0), [[0, 0]]⟩ (1, 0) state_distance =
      .found [⟨⟨(0, 0), [[0, 0]]⟩, none, none, 0⟩,
        ⟨⟨(1, 0), [[0, 0]]⟩, some 0, some Action.right, 1⟩] 1 := Or.inl (by decide)
  exact ⟨hf, path_final_state_goal _ _ _ false _ _ hf⟩

/-- C5: for every board and start state from which no goal state is reachable
— no accepted action sequence ends in a state satisfying the goal condition —
both the uninformed search (either frontier discipline) and the informed
search return the distinct `notFound` outcome: they neither return a goal
node nor end in the `broken` or `outOfFuel` conditions. -/
theorem unreachable_notfound (b : Board) (s0 : State) (finalPos : Pos) (lifo : Bool)
    (hunreach : ∀ acts s', runActions b s0 acts = some s' →
      isGoal finalPos s' = false) :
    uninformed_graph_search b s0 finalPos lifo = .notFound ∧
    informed_graph_search b s0 finalPos state_distance = .notFound := by
  constructor
  · rcases uninformed_total b s0 finalPos lifo with ⟨aF, g, hf⟩ | hnf
    · exfalso
      obtain ⟨hok, nd, hnd, hg⟩ := uninformed_found_spec hf
      obtain ⟨acts, _, hrun⟩ := entry_cost_reach hok hnd
      rw [hunreach acts nd.state hrun] at hg
      cases hg
    · exact hnf
  · rcases informed_total b s0 finalPos state_distance
        (state_distance_consistent b finalPos) with ⟨aF, g, hf⟩ | hnf
    · exfalso
      obtain ⟨hok, nd, hnd, hg, _⟩ := (informed_spec b s0 finalPos state_distance
        (state_distance_consistent b finalPos)).1 aF g hf
      obtain ⟨acts, _, hrun⟩ := entry_cost_reach hok hnd
      rw [hunreach acts nd.state hrun] at hg
      cases hg
    · exact hnf

theorem unreachable_notfound_witness :
    (∀ acts s', runActions ⟨[[true]]⟩ ⟨(0, 0), [[0]]⟩ acts = some s' →
      isGoal (1, 0) s' = false) ∧
    (uninformed_graph_search ⟨[[true]]⟩ ⟨(0, 0), [[0]]⟩ (1, 0) false = .notFound ∧
      informed_graph_search ⟨[[true]]⟩ ⟨(0, 0), [[0]]⟩ (1, 0) state_distance =
        .notFound) := by
  have hun : ∀ acts s', runActions ⟨[[true]]⟩ ⟨(0, 0), [[0]]⟩ acts = some s' →
      isGoal (1, 0) s' = false := by
    intro acts s' hrun
    have hU := runActions_inUniv hrun
    have hpos : s'.pos = (0, 0) := by
      rcases hU.1 with hp | hp
      · exact hp
      · rw [mem_gridPositions_iff] at hp
        obtain ⟨hy, hx⟩ := hp
        have hy1 : s'.pos.2 < 1 := hy
        have hy0 : s'.pos.2 = 0 := by omega
        rw [hy0] at hx
        have hx1 : s'.pos.1 < 1 := hx
        have hx0 : s'.pos.1 = 0 := by omega
        rw [Prod.ext_iff]
        exact ⟨hx0, hy0⟩
    unfold isGoal
    rw [hpos]
    rfl
  exact ⟨hun, unreachable_notfound _ _ _ false hun⟩

end Vacuum
